import Mathlib

/-!
# regedit.hpp: a shallow embedding

`neo::regedit` is a header-only accessor over the Windows registry.  The
embedding below follows `src/regedit.hpp` function by function.

* C strings (`const char*`) are lists of character codes; the end of the list
  stands for the terminating NUL, and a `0` inside a list is a NUL as well.
* `DWORD` values are natural numbers, reduced modulo `2^32` wherever the
  source computes with them.
* The registry itself is not part of the header.  It is modelled as a small
  store (`Registry`) with the primitives of section 6 of the specification;
  every primitive returns `none` where the system call reports a status
  other than `ERROR_SUCCESS`.
* Exceptions and undefined behaviour are values of `Except Fault`.
-/

namespace neo

/-! ## Basic types and constants of `windows.h` -/

abbrev Name := List Nat
abbrev HKEY := Nat
abbrev DWORD := Nat

def NULL : HKEY := 0

def KEY_READ : DWORD := 0x20019
def KEY_WRITE : DWORD := 0x20006

def REG_CREATED_NEW_KEY : DWORD := 1
def REG_OPENED_EXISTING_KEY : DWORD := 2

def REG_NONE : DWORD := 0
def REG_SZ : DWORD := 1
def REG_EXPAND_SZ : DWORD := 2
def REG_BINARY : DWORD := 3
def REG_DWORD : DWORD := 4
def REG_DWORD_BIG_ENDIAN : DWORD := 5
def REG_LINK : DWORD := 6
def REG_MULTI_SZ : DWORD := 7
def REG_RESOURCE_LIST : DWORD := 8
def REG_FULL_RESOURCE_DESCRIPTOR : DWORD := 9
def REG_RESOURCE_REQUIREMENTS_LIST : DWORD := 10
def REG_QWORD : DWORD := 11

/-- The ways an operation can end other than by returning: the two exception
classes the header throws, undefined behaviour (a read through a null or
dangling pointer, an uninitialised buffer), and a loop that has not finished
within the fuel it was given. -/
inductive Fault where
  | logic_error
  | out_of_range
  | undefined
  | diverged
deriving DecidableEq, Repr

namespace __regedit_details

/-- The `enum class type : DWORD` of the header.  `dword_little_endian` and
`qword_little_endian` have the values of `dword` and `qword` and are the
same enumeration values. -/
inductive type where
  | none
  | sz
  | expand_sz
  | binary
  | dword
  | dword_big_endian
  | link
  | multi_sz
  | resource_list
  | full_resource_descriptor
  | resource_requirements_list
  | qword
deriving DecidableEq, Repr

/-- The `static_cast<DWORD>(ty)` of an enumerator. -/
def type.toDWORD : type → DWORD
  | .none => REG_NONE
  | .sz => REG_SZ
  | .expand_sz => REG_EXPAND_SZ
  | .binary => REG_BINARY
  | .dword => REG_DWORD
  | .dword_big_endian => REG_DWORD_BIG_ENDIAN
  | .link => REG_LINK
  | .multi_sz => REG_MULTI_SZ
  | .resource_list => REG_RESOURCE_LIST
  | .full_resource_descriptor => REG_FULL_RESOURCE_DESCRIPTOR
  | .resource_requirements_list => REG_RESOURCE_REQUIREMENTS_LIST
  | .qword => REG_QWORD

/-- The `tolower` of `<cctype>` in the "C" locale. -/
def tolower (c : Nat) : Nat := if 65 ≤ c ∧ c ≤ 90 then c + 32 else c

/-- The portable branch of `_lcase_cmp` (lines 224-229); under `_MSC_VER` the
function is `_stricmp`, which is not part of the header.  Each round of the
`do ... while` loop computes `result` from the two current characters and
goes on only while both are non-NUL and `result == 0`; the value returned is
`result` clamped to `[-1, 1]`. -/
def _lcase_cmp : List Nat → List Nat → Int
  | [], [] => min 1 (max (-1) ((tolower 0 : Int) - (tolower 0 : Int)))
  | [], c2 :: _ => min 1 (max (-1) ((tolower 0 : Int) - (tolower c2 : Int)))
  | c1 :: _, [] => min 1 (max (-1) ((tolower c1 : Int) - (tolower 0 : Int)))
  | c1 :: p1, c2 :: p2 =>
    let result : Int := (tolower c1 : Int) - (tolower c2 : Int)
    if c1 ≠ 0 ∧ c2 ≠ 0 ∧ result = 0 then _lcase_cmp p1 p2
    else min 1 (max (-1) result)

/-- The class template `iter`: a handle and an ordinal position. -/
structure iter where
  _hkey : HKEY
  _pos : DWORD
deriving DecidableEq, Repr

/-- The `operator==` of `iter` (lines 73-75 and 79-81). -/
def iter.eq (a b : iter) : Bool := decide (a._pos = b._pos) && decide (a._hkey = b._hkey)

/-- The `operator!=` of `iter`. -/
def iter.ne (a b : iter) : Bool := !(a.eq b)

/-- The prefix `operator++` of `iter`: `++_pos` on a `DWORD`. -/
def iter.inc (a : iter) : iter := { a with _pos := (a._pos + 1) % 2 ^ 32 }

/-- The prefix `operator--` of `iter`: `--_pos` on a `DWORD`. -/
def iter.dec (a : iter) : iter := { a with _pos := (a._pos + 2 ^ 32 - 1) % 2 ^ 32 }

end __regedit_details

open __regedit_details

/-! ## The backing store -/

/-- A stored value: its type tag and its raw bytes. -/
structure RegValue where
  type : DWORD
  data : List Nat
deriving DecidableEq, Repr

/-- One registry key: its subkeys (name and identity of the child) and its
values, both in enumeration order. -/
structure KeyRec where
  subkeys : List (Name × Nat)
  values : List (Name × RegValue)
deriving DecidableEq, Repr

/-- The registry: the keys by identity, the table of open handles (handle,
key it refers to), and the next unused key identity. -/
structure Registry where
  keys : Nat → KeyRec
  handles : List (HKEY × Nat)
  nextKey : Nat

/-- The characters of a C string: everything before the first NUL. -/
def cstring (s : List Nat) : Name := s.takeWhile (fun c => c ≠ 0)

/-- Whether two names are the same for the store: names are not case
sensitive. -/
def sameName (a b : Name) : Bool := decide (_lcase_cmp a b = 0)

/-- The first entry with this name, ignoring case. -/
def findEntry {α : Type} (name : Name) : List (Name × α) → Option α
  | [] => none
  | e :: es => if sameName name e.1 then some e.2 else findEntry name es

/-- A new entry placed before the first entry whose name is greater, ignoring
case. -/
def insertEntry {α : Type} (name : Name) (x : α) : List (Name × α) → List (Name × α)
  | [] => [(name, x)]
  | e :: es => if _lcase_cmp name e.1 < 0 then (name, x) :: e :: es else e :: insertEntry name x es

/-- The entries whose name differs from this one, ignoring case. -/
def removeEntry {α : Type} (name : Name) (es : List (Name × α)) : List (Name × α) :=
  es.filter (fun e => !sameName name e.1)

/-- The entry with this name replaced, all other entries kept in place. -/
def replaceEntry {α : Type} (name : Name) (x : α) : List (Name × α) → List (Name × α)
  | [] => []
  | e :: es => if sameName name e.1 then (e.1, x) :: es else e :: replaceEntry name x es

/-- The key a handle refers to, in a handle table. -/
def lookupHandle (h : HKEY) : List (HKEY × Nat) → Option Nat
  | [] => none
  | e :: es => if e.1 = h then some e.2 else lookupHandle h es

/-- A handle value that is not `NULL` and not in the table. -/
def freshHandle (hs : List (HKEY × Nat)) : HKEY := (hs.map Prod.fst).foldr max 0 + 1

/-- The identity of the key behind a handle; `NULL` is never a valid handle. -/
def Registry.keyOf (reg : Registry) (h : HKEY) : Option Nat :=
  if h = NULL then none else lookupHandle h reg.handles

/-- The key behind a handle. -/
def Registry.key (reg : Registry) (h : HKEY) : Option KeyRec :=
  (reg.keyOf h).map reg.keys

/-- The registry with one more open handle, and that handle. -/
def Registry.newHandle (reg : Registry) (kid : Nat) : Registry × HKEY :=
  let h := freshHandle reg.handles
  ({ reg with handles := reg.handles ++ [(h, kid)] }, h)

/-- The registry with the record of one key replaced. -/
def Registry.setKey (reg : Registry) (kid : Nat) (k : KeyRec) : Registry :=
  { reg with keys := fun i => if i = kid then k else reg.keys i }

/-- Modelled from the spec: `open(root, path, access)` of section 6, the
system call `RegOpenKeyExA`; it returns a handle or a failure.  An empty path
opens the key of `hKey` itself (the header relies on this to duplicate a
handle), any other path is the name of a direct subkey.  Access rights are
not modelled: every requested access is granted. -/
def RegOpenKeyExA (reg : Registry) (hKey : HKEY) (lpSubKey : Name) (_samDesired : DWORD) :
    Option (Registry × HKEY) :=
  match reg.keyOf hKey with
  | none => none
  | some kid =>
    if cstring lpSubKey = [] then some (reg.newHandle kid)
    else
      match findEntry (cstring lpSubKey) (reg.keys kid).subkeys with
      | none => none
      | some child => some (reg.newHandle child)

/-- Modelled from the spec: `create_or_open(parent, name, access)` of section
6, the system call `RegCreateKeyExA`; it returns the handle and the
disposition (created or opened).  A created subkey is empty and takes its
place in the case-insensitive order of the names. -/
def RegCreateKeyExA (reg : Registry) (hKey : HKEY) (lpSubKey : Name) (_samDesired : DWORD) :
    Option (Registry × HKEY × DWORD) :=
  match reg.keyOf hKey with
  | none => none
  | some kid =>
    match findEntry (cstring lpSubKey) (reg.keys kid).subkeys with
    | some child =>
      let r := reg.newHandle child
      some (r.1, r.2, REG_OPENED_EXISTING_KEY)
    | none =>
      let child := reg.nextKey
      let parent := reg.keys kid
      let reg1 := reg.setKey child { subkeys := [], values := [] }
      let reg2 := reg1.setKey kid
        { parent with subkeys := insertEntry (cstring lpSubKey) child parent.subkeys }
      let r := Registry.newHandle { reg2 with nextKey := child + 1 } child
      some (r.1, r.2, REG_CREATED_NEW_KEY)

/-- Modelled from the spec: `close(handle)` of section 6, the system call
`RegCloseKey`. -/
def RegCloseKey (reg : Registry) (hKey : HKEY) : Registry :=
  { reg with handles := reg.handles.filter (fun e => decide (e.1 ≠ hKey)) }

/-- Modelled from the spec: `query_metadata(handle)` of section 6, the system
call `RegQueryInfoKeyA`; it returns the number of subkeys and the number of
values, both as `DWORD`. -/
def RegQueryInfoKeyA (reg : Registry) (hKey : HKEY) : Option (DWORD × DWORD) :=
  (reg.key hKey).map (fun k => (k.subkeys.length % 2 ^ 32, k.values.length % 2 ^ 32))

/-- Modelled from the spec: `enumerate_subkey(handle, index)` of section 6,
the system call `RegEnumKeyExA`; it returns the name at the index or a
failure. -/
def RegEnumKeyExA (reg : Registry) (hKey : HKEY) (dwIndex : DWORD) : Option Name :=
  (reg.key hKey).bind (fun k => (k.subkeys.get? dwIndex).map Prod.fst)

/-- Modelled from the spec: `enumerate_value(handle, index)` of section 6,
the system call `RegEnumValueA`, as the header calls it: only the name is
asked for. -/
def RegEnumValueA (reg : Registry) (hKey : HKEY) (dwIndex : DWORD) : Option Name :=
  (reg.key hKey).bind (fun k => (k.values.get? dwIndex).map Prod.fst)

/-- Modelled from the spec: `delete_subtree(handle, name)` of section 6, the
system call `RegDeleteTreeA`. -/
def RegDeleteTreeA (reg : Registry) (hKey : HKEY) (lpSubKey : Name) : Option Registry :=
  match reg.keyOf hKey with
  | none => none
  | some kid =>
    match findEntry (cstring lpSubKey) (reg.keys kid).subkeys with
    | none => none
    | some _ =>
      some (reg.setKey kid
        { reg.keys kid with subkeys := removeEntry (cstring lpSubKey) (reg.keys kid).subkeys })

/-- Modelled from the spec: `get_value(handle, name)` of section 6, the
system call `RegQueryValueExA`; it returns the type tag and the raw bytes, or
a failure. -/
def RegQueryValueExA (reg : Registry) (hKey : HKEY) (lpValueName : Name) : Option RegValue :=
  (reg.key hKey).bind (fun k => findEntry (cstring lpValueName) k.values)

/-- Modelled from the spec: `set_value(handle, name, type_tag, raw_bytes)` of
section 6, the system call `RegSetValueExA`.  An existing value keeps its
place, a new one takes its place in the case-insensitive order of the
names. -/
def RegSetValueExA (reg : Registry) (hKey : HKEY) (lpValueName : Name) (dwType : DWORD)
    (lpData : List Nat) : Option Registry :=
  match reg.keyOf hKey with
  | none => none
  | some kid =>
    let k := reg.keys kid
    match findEntry (cstring lpValueName) k.values with
    | some _ =>
      some (reg.setKey kid
        { k with values := replaceEntry (cstring lpValueName) ⟨dwType, lpData⟩ k.values })
    | none =>
      some (reg.setKey kid
        { k with values := insertEntry (cstring lpValueName) ⟨dwType, lpData⟩ k.values })

/-- Modelled from the spec: `delete_value(handle, name)` of section 6, the
system call `RegDeleteValueA`. -/
def RegDeleteValueA (reg : Registry) (hKey : HKEY) (lpValueName : Name) : Option Registry :=
  match reg.keyOf hKey with
  | none => none
  | some kid =>
    match findEntry (cstring lpValueName) (reg.keys kid).values with
    | none => none
    | some _ =>
      some (reg.setKey kid
        { reg.keys kid with values := removeEntry (cstring lpValueName) (reg.keys kid).values })

/-! ## Name lookup -/

/-- The `while(left <= right)` loop shared by `regedit::_find_pos` (lines
251-262) and `values::_find_pos` (lines 453-464); the two differ only in the
enumeration call, passed here as `probe`.  `left`, `right` and `pos` are
`DWORD`s, so `left + right`, `pos + 1` and `pos - 1` are taken modulo `2^32`.
The first argument bounds the number of rounds; `none` means the bound was
reached. -/
def _find_pos_loop (probe : DWORD → Option Name) (str : Name) (endp : DWORD) :
    Nat → DWORD → DWORD → Option DWORD
  | 0, _, _ => none
  | fuel + 1, left, right =>
    if left ≤ right then
      let pos := ((left + right) % 2 ^ 32) >>> 1
      match probe pos with
      | none => some endp
      | some buff =>
        let cmp := _lcase_cmp str buff
        if cmp > 0 then _find_pos_loop probe str endp fuel ((pos + 1) % 2 ^ 32) right
        else if cmp < 0 then _find_pos_loop probe str endp fuel left ((pos + 2 ^ 32 - 1) % 2 ^ 32)
        else some pos
    else some endp

/-- The body of `_find_pos` after the count query succeeded with `endp`. -/
def _find_pos_from (probe : DWORD → Option Name) (str : Name) (endp : DWORD) : Option DWORD :=
  if 0 ≠ endp then _find_pos_loop probe str endp (endp + 2) 0 endp else some endp

/-! ## The class `regedit` -/

/-- The data members of `regedit`: the handle and the access mode. -/
structure regedit where
  _hkey : HKEY := NULL
  _mode : DWORD := KEY_READ ||| KEY_WRITE
deriving DecidableEq, Repr

namespace regedit

/-- The member `regedit::_find_pos` (lines 243-266). -/
def _find_pos (reg : Registry) (self : regedit) (str : Name) : Except Fault DWORD :=
  match RegQueryInfoKeyA reg self._hkey with
  | none => .ok 0
  | some (endp, _) =>
    match _find_pos_from (RegEnumKeyExA reg self._hkey) str endp with
    | none => .error .diverged
    | some pos => .ok pos

/-- The member `regedit::is_open` (lines 827-829). -/
def is_open (self : regedit) : Bool := decide (self._hkey ≠ NULL)

/-- The member `regedit::open` (lines 759-762).  `RegOpenKeyExA` writes the
handle through `&_hkey` when it succeeds, and the header assigns `_hkey`
nowhere else on this path. -/
def «open» (reg : Registry) (self : regedit) (hkey : HKEY) (key : Name)
    (write_permision : Bool) : Registry × regedit × Bool :=
  let mode := if write_permision = true then KEY_READ ||| KEY_WRITE else KEY_READ
  match RegOpenKeyExA reg hkey key mode with
  | some (reg1, h) => (reg1, { _hkey := h, _mode := mode }, true)
  | none => (reg, { _hkey := self._hkey, _mode := mode }, false)

/-- The member `regedit::close` (lines 764-768). -/
def close (reg : Registry) (self : regedit) : Registry × regedit :=
  (if self._hkey ≠ NULL then RegCloseKey reg self._hkey else reg, { self with _hkey := NULL })

/-- The constructor `regedit(HKEY hkey, const std::string& key, bool)` (lines
665-667): a fresh object on which `open` is called. -/
def ctor (reg : Registry) (hkey : HKEY) (key : Name) (write_permision : Bool) :
    Registry × regedit :=
  let r := «open» reg {} hkey key write_permision
  (r.1, r.2.1)

/-- The function object `regedit::_gen_fn` (lines 268-275).  When the
enumeration fails `buff` is read uninitialised. -/
def _gen_fn (reg : Registry) (hk : HKEY) (pos : DWORD) :
    Except Fault (Registry × Name × regedit) :=
  match RegEnumKeyExA reg hk pos with
  | none => .error .undefined
  | some buff =>
    let r := ctor reg hk buff true
    .ok (r.1, buff, r.2)

/-- The member `regedit::size` (lines 752-755). -/
def size (reg : Registry) (self : regedit) : Nat :=
  match RegQueryInfoKeyA reg self._hkey with
  | some (size, _) => size
  | none => 0

/-- The member `regedit::begin` (lines 685-693). -/
def «begin» (self : regedit) : iter := ⟨self._hkey, 0⟩

/-- The member `regedit::end` (lines 695-703). -/
def «end» (reg : Registry) (self : regedit) : iter := ⟨self._hkey, size reg self % 2 ^ 32⟩

/-- The member `regedit::find` (lines 820-822). -/
def find (reg : Registry) (self : regedit) (key : Name) : Except Fault iter :=
  match _find_pos reg self key with
  | .error e => .error e
  | .ok pos => .ok ⟨self._hkey, pos⟩

/-- The member `regedit::insert(const std::string&)` (lines 770-776).  The
handle `hk` is not used again. -/
def insert (reg : Registry) (self : regedit) (key : Name) :
    Except Fault (Registry × iter × Bool) :=
  match RegCreateKeyExA reg self._hkey key self._mode with
  | none => .error .logic_error
  | some (reg1, _hk, disp) =>
    match find reg1 self key with
    | .error e => .error e
    | .ok it => .ok (reg1, it, decide (disp = REG_CREATED_NEW_KEY))

/-- The member `regedit::erase(const_iterator)` (lines 786-790).  `pos->first`
builds the pair of `_gen_fn`; the pair and the `regedit` in it live until the
end of the condition of the `if`. -/
def erase (reg : Registry) (self : regedit) (pos : iter) : Except Fault (Registry × iter) :=
  match _gen_fn reg pos._hkey pos._pos with
  | .error e => .error e
  | .ok (reg1, first, tmp) =>
    match RegDeleteTreeA reg1 self._hkey first with
    | none => .error .logic_error
    | some reg2 =>
      .ok ((close reg2 tmp).1, ⟨self._hkey, if pos._pos = 0 then 0 else pos._pos - 1⟩)

/-- The member `regedit::operator[]` (lines 736-742).  The disposition `disp`
is received and not used; the result is `regedit(hk)`, the constructor of
lines 665-667 with its default arguments. -/
def operator_index (reg : Registry) (self : regedit) (key : Name) :
    Except Fault (Registry × regedit) :=
  match RegCreateKeyExA reg self._hkey key self._mode with
  | none => .error .logic_error
  | some (reg1, hk, _disp) => .ok (ctor reg1 hk [] true)

/-- The member `regedit::at` (lines 727-732). -/
def «at» (reg : Registry) (self : regedit) (key : Name) : Except Fault (Registry × regedit) :=
  let r := ctor reg self._hkey key true
  if is_open r.2 = false then .error .out_of_range else .ok r

/-- The member `regedit::swap` (lines 805-808). -/
def swap (self other : regedit) : regedit × regedit :=
  ({ _hkey := other._hkey, _mode := other._mode }, { _hkey := self._hkey, _mode := self._mode })

/-- The move assignment `regedit::operator=(regedit&&)` (lines 674-677): the
pair is the object assigned to and the object moved from, after the call. -/
def move_assign (self other : regedit) : regedit × regedit :=
  swap self other

/-- The move constructor `regedit(regedit&&)` (lines 661-663): the members of
the new object take their default initialisers, then the move assignment
runs.  The pair is the new object and the object moved from. -/
def move_ctor (other : regedit) : regedit × regedit :=
  move_assign {} other

end regedit

/-! ## The class `regedit::values` -/

/-- The data member of `values`: the reference `HKEY& _hkey` to the handle of
the enclosing `regedit`, held here as the value it refers to. -/
structure values where
  _hkey : HKEY
deriving DecidableEq, Repr

/-- The member `regedit::values` of a key: it is bound to `_hkey` of the
key. -/
def regedit.values_of (self : regedit) : values := ⟨self._hkey⟩

namespace values

/-- The member `values::_find_pos` (lines 445-468). -/
def _find_pos (reg : Registry) (self : values) (str : Name) : Except Fault DWORD :=
  match RegQueryInfoKeyA reg self._hkey with
  | none => .ok 0
  | some (_, endp) =>
    match _find_pos_from (RegEnumValueA reg self._hkey) str endp with
    | none => .error .diverged
    | some pos => .ok pos

/-- The member `values::size` (lines 592-595). -/
def size (reg : Registry) (self : values) : Nat :=
  match RegQueryInfoKeyA reg self._hkey with
  | some (_, size) => size
  | none => 0

/-- The member `values::begin` (lines 524-532). -/
def «begin» (self : values) : iter := ⟨self._hkey, 0⟩

/-- The member `values::end` (lines 534-542). -/
def «end» (reg : Registry) (self : values) : iter := ⟨self._hkey, size reg self % 2 ^ 32⟩

/-- The member `values::find` (lines 646-648). -/
def find (reg : Registry) (self : values) (val : Name) : Except Fault iter :=
  match _find_pos reg self val with
  | .error e => .error e
  | .ok pos => .ok ⟨self._hkey, pos⟩

end values

/-! ## The value codec -/

namespace __regedit_details.read_overload

/-- The untyped `read` (lines 157-163): the block of `len` bytes that the
second query fills.  When the queries fail `len` stays `0` and the block is
empty. -/
def read (reg : Registry) (hk : HKEY) (name : Name) : List Nat :=
  match RegQueryValueExA reg hk name with
  | some v => v.data
  | none => []

/-- The conversion `std::string(const char*)` on a block of memory, starting
`off` bytes into it: the characters before the first NUL.  A block without a
NUL is read past its end. -/
def string_at (block : List Nat) (off : Nat) : Except Fault (List Nat) :=
  if 0 ∈ block.drop off then .ok (cstring (block.drop off)) else .error .undefined

/-- The specialisation `read<type::sz>` (lines 169-171). -/
def read_sz (reg : Registry) (hk : HKEY) (name : Name) : Except Fault (List Nat) :=
  string_at (read reg hk name) 0

/-- The specialisation `read<type::binary>` (lines 179-181). -/
def read_binary (reg : Registry) (hk : HKEY) (name : Name) : List Nat :=
  read reg hk name

/-- The specialisation `read<type::dword>` (lines 182-184): the first four
bytes of the block as a little-endian `DWORD`. -/
def read_dword (reg : Registry) (hk : HKEY) (name : Name) : Except Fault DWORD :=
  match read reg hk name with
  | b0 :: b1 :: b2 :: b3 :: _ => .ok (b0 + 256 * b1 + 65536 * b2 + 16777216 * b3)
  | _ => .error .undefined

/-- The specialisation `read<type::dword_big_endian>` (lines 185-189). -/
def read_dword_big_endian (reg : Registry) (hk : HKEY) (name : Name) : Except Fault DWORD :=
  read_dword reg hk name

/-- The `while` loop of `read<type::multi_sz>` (lines 200-203) over the
pointer held by `ptr`; `none` is a null pointer.  The first argument bounds
the number of rounds. -/
def read_multi_sz_loop (ptr : Option (List Nat)) (len : DWORD) :
    Nat → DWORD → List (List Nat) → Except Fault (List (List Nat))
  | 0, _, _ => .error .diverged
  | fuel + 1, off, vec =>
    if off < len then
      match ptr with
      | none => .error .undefined
      | some block =>
        match block.get? off with
        | none => .error .undefined
        | some c =>
          if c ≠ 0 then
            match string_at block off with
            | .error e => .error e
            | .ok str =>
              read_multi_sz_loop ptr len fuel ((off + (str.length + 1)) % 2 ^ 32) (vec ++ [str])
          else .ok vec
    else .ok vec

/-- The specialisation `read<type::multi_sz>` (lines 193-205).  Line 196 is
`std::unique_ptr<BYTE> ptr; (new BYTE[len]);`: `ptr` is default-constructed,
so it is null, and the new block is a discarded expression.  The second
query therefore receives a null data pointer and only reports the length. -/
def read_multi_sz (reg : Registry) (hk : HKEY) (name : Name) :
    Except Fault (List (List Nat)) :=
  let len : DWORD :=
    match RegQueryValueExA reg hk name with
    | some v => v.data.length % 2 ^ 32
    | none => 0
  let ptr : Option (List Nat) := none
  read_multi_sz_loop ptr len (len + 1) 0 []

end __regedit_details.read_overload

/-- The data members of `regedit::value`. -/
structure value where
  _hkey : HKEY := NULL
  _name : List Nat := []
  _mode : DWORD := KEY_READ ||| KEY_WRITE
deriving DecidableEq, Repr

namespace value

/-- The constructor `value(HKEY hk, const char* name, bool)` (lines
340-343). -/
def ctor (reg : Registry) (hk : HKEY) (name : Name) (write_permision : Bool) :
    Registry × value :=
  let mode := if write_permision = true then KEY_READ ||| KEY_WRITE else KEY_READ
  match RegOpenKeyExA reg hk [] mode with
  | some (reg1, h) => (reg1, { _hkey := h, _name := cstring name, _mode := mode })
  | none => (reg, { _hkey := NULL, _name := cstring name, _mode := mode })

/-- The destructor `~value` (lines 362-365). -/
def dtor (reg : Registry) (self : value) : Registry :=
  if self._hkey ≠ NULL then RegCloseKey reg self._hkey else reg

/-- The member `value::write(const void*, type, DWORD)` (lines 375-377): the
store is handed the first `bytes` bytes at `data`; the status is not
looked at. -/
def write (reg : Registry) (self : value) (data : List Nat) (ty : type) (bytes : DWORD) :
    Registry :=
  match RegSetValueExA reg self._hkey self._name ty.toDWORD (data.take bytes) with
  | some reg1 => reg1
  | none => reg

/-- The overload `write<Ty>()` for `Ty == type::none` (lines 379-382). -/
def write_none (reg : Registry) (self : value) : Registry :=
  write reg self [] type.none 0

/-- The overload `write<Ty>(const std::string&)` for `sz` and `expand_sz`
(lines 383-386): `val.c_str()` points at the characters of `val` followed by
a NUL. -/
def write_sz (reg : Registry) (self : value) (Ty : type) (val : List Nat) : Registry :=
  write reg self (val ++ [0]) Ty (val.length + 1)

/-- The overload `write<Ty>(const uint8_t*, size_t)` for `binary` (lines
387-390). -/
def write_binary (reg : Registry) (self : value) (val : List Nat) (bytes : Nat) : Registry :=
  write reg self val type.binary (bytes % 2 ^ 32)

/-- The overload `write<Ty>(DWORD)` for `dword` and `dword_big_endian` (lines
391-394): the four bytes of the object `val`, least significant first. -/
def write_dword (reg : Registry) (self : value) (Ty : type) (val : DWORD) : Registry :=
  write reg self [val % 256, val / 256 % 256, val / 65536 % 256, val / 16777216 % 256] Ty 4

/-- The inner loop of `write<multi_sz>` (lines 403-404),
`for(size_t p = 0; (*it)[p] != 0; ++p) vec.push_back((*it)[p]);`, from the
characters of `*it` at position `p` on; past the last character `(*it)[p]`
is the NUL that ends a `std::string`. -/
def write_multi_sz_chars : List Nat → List Nat → List Nat
  | [], vec => vec
  | c :: rest, vec => if c ≠ 0 then write_multi_sz_chars rest (vec ++ [c]) else vec

/-- The outer loop of `write<multi_sz>` (lines 402-406) over the range
`[left, right)`: the inner loop, then `vec.push_back(0)`. -/
def write_multi_sz_loop : List (List Nat) → List Nat → List Nat
  | [], vec => vec
  | str :: rest, vec => write_multi_sz_loop rest (write_multi_sz_chars str vec ++ [0])

/-- The vector that `write<multi_sz>` builds (lines 401-407): the loops over
an empty vector, then one more `vec.push_back(0)`. -/
def write_multi_sz_vec (strs : List (List Nat)) : List Nat :=
  write_multi_sz_loop strs [] ++ [0]

/-- The overload `write<Ty>(InputIterator, InputIterator)` for `multi_sz`
(lines 399-409): the vector is built, then `write(vec.data(), Ty,
vec.size())`. -/
def write_multi_sz (reg : Registry) (self : value) (strs : List (List Nat)) : Registry :=
  write reg self (write_multi_sz_vec strs) type.multi_sz (write_multi_sz_vec strs).length

/-- The member `value::read<type::sz>` (lines 370-373). -/
def read_sz (reg : Registry) (self : value) : Except Fault (List Nat) :=
  read_overload.read_sz reg self._hkey self._name

/-- The member `value::read<type::dword>` (lines 370-373). -/
def read_dword (reg : Registry) (self : value) : Except Fault DWORD :=
  read_overload.read_dword reg self._hkey self._name

/-- The member `value::read<type::multi_sz>` (lines 370-373). -/
def read_multi_sz (reg : Registry) (self : value) : Except Fault (List (List Nat)) :=
  read_overload.read_multi_sz reg self._hkey self._name

/-- The member `value::type` (lines 419-423). -/
def type_of (reg : Registry) (self : value) : DWORD :=
  match RegQueryValueExA reg self._hkey self._name with
  | some v => v.type
  | none => 0

/-- The member `value::size` (lines 425-428). -/
def size (reg : Registry) (self : value) : Nat :=
  match RegQueryValueExA reg self._hkey self._name with
  | some v => v.data.length % 2 ^ 32
  | none => 0

end value

namespace values

/-- The function object `values::_gen_fn` (lines 470-477).  When the
enumeration fails `buff` is read uninitialised. -/
def _gen_fn (reg : Registry) (hk : HKEY) (pos : DWORD) :
    Except Fault (Registry × Name × value) :=
  match RegEnumValueA reg hk pos with
  | none => .error .undefined
  | some buff =>
    let r := value.ctor reg hk buff true
    .ok (r.1, buff, r.2)

/-- The member `values::insert(const std::string&)` (lines 599-605).  The
status of `RegSetValueExA` is not looked at. -/
def insert (reg : Registry) (self : values) (val : Name) :
    Except Fault (Registry × iter × Bool) :=
  match find reg self val with
  | .error e => .error e
  | .ok it =>
    if it.ne («end» reg self) then .ok (reg, it, false)
    else
      let reg1 :=
        match RegSetValueExA reg self._hkey val REG_NONE [] with
        | some r => r
        | none => reg
      match find reg1 self val with
      | .error e => .error e
      | .ok it1 => .ok (reg1, it1, true)

/-- The member `values::erase(const_iterator)` (lines 617-621).  `pos->first`
builds the pair of `_gen_fn`; the pair and the `value` in it live until the
end of the condition of the `if`, so `size()` is asked after the `value` is
destroyed. -/
def erase (reg : Registry) (self : values) (pos : iter) : Except Fault (Registry × iter) :=
  match _gen_fn reg pos._hkey pos._pos with
  | .error e => .error e
  | .ok (reg1, first, tmp) =>
    match RegDeleteValueA reg1 self._hkey first with
    | none => .error .logic_error
    | some reg2 =>
      let reg3 := value.dtor reg2 tmp
      .ok (reg3, ⟨self._hkey, min pos._pos (size reg3 self % 2 ^ 32)⟩)

/-- The member `values::erase(const std::string&)` (lines 622-628): the
number returned is `0` or `1`. -/
def erase_name (reg : Registry) (self : values) (val : Name) : Except Fault (Registry × Nat) :=
  match find reg self val with
  | .error e => .error e
  | .ok it =>
    if it.eq («end» reg self) then .ok (reg, 0)
    else
      match erase reg self it with
      | .error e => .error e
      | .ok (reg1, _) => .ok (reg1, 1)

end values

/-- One round of the `while` loop of `_find_pos` (lines 252-261) from a state
with `left <= right`: either the function returns (`Sum.inl`), or the loop
goes on with new bounds (`Sum.inr`). -/
def _find_pos_step (probe : DWORD → Option Name) (str : Name) (endp : DWORD)
    (left right : DWORD) : DWORD ⊕ (DWORD × DWORD) :=
  let pos := ((left + right) % 2 ^ 32) >>> 1
  match probe pos with
  | none => .inl endp
  | some buff =>
    let cmp := _lcase_cmp str buff
    if cmp > 0 then .inr ((pos + 1) % 2 ^ 32, right)
    else if cmp < 0 then .inr (left, (pos + 2 ^ 32 - 1) % 2 ^ 32)
    else .inl pos

/-! ## Notions used to state the properties -/

/-- What one round of the search loop does from `left <= right`, with `n` the
number of names: it returns `n` or a position below `n` whose name compares
equal to the target; or it goes on with a strictly smaller range inside the
old one; or the probe was at position `0` with a name greater than the
target, `right` wraps to `2^32 - 1`, and the following round probes position
`2^31 - 1`, fails there and returns `n`. -/
def RoundReturnsOrShrinks (probe : DWORD → Option Name) (str : Name) (n left right : Nat) :
    Prop :=
  match _find_pos_step probe str n left right with
  | .inl p => p = n ∨ (p < n ∧ ∃ b, probe p = some b ∧ _lcase_cmp str b = 0)
  | .inr (l, r) =>
    (left ≤ l ∧ r ≤ right ∧ r + 1 - l < right + 1 - left) ∨
    (((left + right) % 2 ^ 32) >>> 1 = 0 ∧ (∃ b, probe 0 = some b ∧ _lcase_cmp str b < 0) ∧
      l = 0 ∧ r = 2 ^ 32 - 1 ∧ ((l + r) % 2 ^ 32) >>> 1 = 2 ^ 31 - 1 ∧
      probe (2 ^ 31 - 1) = none ∧ _find_pos_step probe str n l r = .inl n)

/-- The framing of a multi-string payload in the words of the
specification: of each string the part before its first NUL, followed by a
NUL, these segments concatenated in order, and one more NUL at the end. -/
def multi_sz_framing (strs : List (List Nat)) : List Nat :=
  (strs.map (fun s => cstring s ++ [0])).flatten ++ [0]


/-- The key a name is compared by: its characters before the first NUL, each
folded to lower case. -/
def foldName (s : List Nat) : List Nat := (cstring s).map tolower

/-- The sign (`-1`, `0` or `1`) of the lexicographic comparison of two
sequences of character codes; a proper initial segment comes before the
longer sequence. -/
def lexSign : List Nat → List Nat → Int
  | [], [] => 0
  | [], _ :: _ => -1
  | _ :: _, [] => 1
  | x :: xs, y :: ys => if x < y then -1 else if y < x then 1 else lexSign xs ys

/-- Whether each name of an enumeration compares below the next one under
`_lcase_cmp`. -/
def strictlySortedB : List Name → Bool
  | [] => true
  | [_] => true
  | a :: b :: rest => decide (_lcase_cmp a b < 0) && strictlySortedB (b :: rest)

/-- An enumeration is strictly sorted when each name compares below the
next one under `_lcase_cmp`. -/
def StrictlySorted (names : List Name) : Prop := strictlySortedB names = true

instance (names : List Name) : Decidable (StrictlySorted names) :=
  inferInstanceAs (Decidable (strictlySortedB names = true))

/-- The number of `operator++` steps that take `it` to a position equal to
`last`, as the loop `for (; it != last; ++it) ++n;` counts them.  The first
argument bounds the number of rounds. -/
def distance : Nat → iter → iter → Option Nat
  | 0, _, _ => none
  | fuel + 1, it, last =>
    if it.ne last then (distance fuel it.inc last).map (fun n => n + 1) else some 0

/-! ## A small registry used to exercise the statements -/

/-- The keys of the sample registry: key `0` has the subkeys `a`, `b`, `d`
(keys `1`, `2`, `3`) and the values `u` and `v1`; every other key is empty. -/
def sampleKeys : Nat → KeyRec := fun i =>
  if i = 0 then
    { subkeys := [([97], 1), ([98], 2), ([100], 3)],
      values := [([117], ⟨REG_SZ, [104, 105, 0]⟩), ([118, 49], ⟨REG_DWORD, [42, 0, 0, 0]⟩)] }
  else { subkeys := [], values := [] }

/-- The sample registry: handle `1` is open on key `0`, handle `2` on the
empty key `1`. -/
def sampleRegistry : Registry := { keys := sampleKeys, handles := [(1, 0), (2, 1)], nextKey := 4 }

/-- A `regedit` object holding handle `1`. -/
def sampleKey : regedit := { _hkey := 1 }

/-- A `regedit` object holding handle `2`, a key without subkeys. -/
def sampleEmptyKey : regedit := { _hkey := 2 }

/-- A `value` object bound to handle `1` and the name `v1`. -/
def sampleValue : value := { _hkey := 1, _name := [118, 49] }

/-! # Theorems -/

/-! ## The comparison `_lcase_cmp` -/

theorem tolower_pos {c : Nat} (h : c ≠ 0) : 0 < tolower c := by
  unfold tolower; split <;> omega

theorem tolower_zero : tolower 0 = 0 := by decide

theorem foldName_nil : foldName [] = [] := rfl

theorem foldName_cons_zero (p : List Nat) : foldName (0 :: p) = [] := by
  simp [foldName, cstring]

theorem foldName_cons {c : Nat} (h : c ≠ 0) (p : List Nat) :
    foldName (c :: p) = tolower c :: foldName p := by
  simp [foldName, cstring, List.takeWhile, h]

theorem lcase_cmp_eq_lexSign (s1 : List Nat) :
    ∀ s2 : List Nat, _lcase_cmp s1 s2 = lexSign (foldName s1) (foldName s2) := by
  induction s1 with
  | nil =>
    intro s2
    cases s2 with
    | nil => simp [_lcase_cmp, foldName_nil, lexSign, tolower_zero]
    | cons c2 p2 =>
      by_cases h2 : c2 = 0
      · subst h2; simp [_lcase_cmp, foldName_nil, foldName_cons_zero, lexSign, tolower_zero]
      · have := tolower_pos h2
        simp only [_lcase_cmp, foldName_nil, foldName_cons h2, lexSign, tolower_zero]
        omega
  | cons c1 p1 ih =>
    intro s2
    cases s2 with
    | nil =>
      by_cases h1 : c1 = 0
      · subst h1; simp [_lcase_cmp, foldName_nil, foldName_cons_zero, lexSign, tolower_zero]
      · have := tolower_pos h1
        simp only [_lcase_cmp, foldName_nil, foldName_cons h1, lexSign, tolower_zero]
        omega
    | cons c2 p2 =>
      by_cases h1 : c1 = 0
      · subst h1
        by_cases h2 : c2 = 0
        · subst h2; simp [_lcase_cmp, foldName_cons_zero, lexSign, tolower_zero]
        · have := tolower_pos h2
          simp only [_lcase_cmp, foldName_cons_zero, foldName_cons h2, lexSign, tolower_zero]
          simp
          omega
      · by_cases h2 : c2 = 0
        · subst h2
          have := tolower_pos h1
          simp only [_lcase_cmp, foldName_cons_zero, foldName_cons h1, lexSign, tolower_zero]
          simp
          omega
        · simp only [_lcase_cmp, foldName_cons h1, foldName_cons h2, lexSign]
          by_cases hlt : tolower c1 < tolower c2
          · simp [h1, h2, hlt]; omega
          · by_cases hgt : tolower c2 < tolower c1
            · simp [h1, h2, hlt, hgt]; omega
            · have heq : tolower c1 = tolower c2 := by omega
              simp [h1, h2, heq, ih]

theorem lexSign_antisymm (xs : List Nat) : ∀ ys : List Nat, lexSign xs ys = - lexSign ys xs := by
  induction xs with
  | nil => intro ys; cases ys <;> simp [lexSign]
  | cons x xs ih =>
    intro ys
    cases ys with
    | nil => simp [lexSign]
    | cons y ys =>
      simp only [lexSign]
      by_cases h1 : x < y
      · have h2 : ¬ y < x := by omega
        simp [h1, h2]
      · by_cases h2 : y < x
        · simp [h1, h2]
        · simp [h1, h2, ih ys]

theorem lexSign_range (xs : List Nat) :
    ∀ ys : List Nat, lexSign xs ys = -1 ∨ lexSign xs ys = 0 ∨ lexSign xs ys = 1 := by
  induction xs with
  | nil => intro ys; cases ys <;> simp [lexSign]
  | cons x xs ih =>
    intro ys
    cases ys with
    | nil => simp [lexSign]
    | cons y ys =>
      simp only [lexSign]
      split
      · simp
      · split
        · simp
        · exact ih ys

theorem lexSign_eq_zero_iff (xs : List Nat) : ∀ ys : List Nat, lexSign xs ys = 0 ↔ xs = ys := by
  induction xs with
  | nil => intro ys; cases ys <;> simp [lexSign]
  | cons x xs ih =>
    intro ys
    cases ys with
    | nil => simp [lexSign]
    | cons y ys =>
      simp only [lexSign]
      by_cases h1 : x < y
      · simp [h1]; omega
      · by_cases h2 : y < x
        · simp [h1, h2]; omega
        · have : x = y := by omega
          simp [h1, h2, ih ys, this]

theorem lexSign_trans (xs : List Nat) :
    ∀ ys zs : List Nat, lexSign xs ys < 0 → lexSign ys zs < 0 → lexSign xs zs < 0 := by
  induction xs with
  | nil =>
    intro ys zs h1 h2
    cases zs with
    | nil => cases ys <;> simp [lexSign] at h1 h2
    | cons z zs => simp [lexSign]
  | cons x xs ih =>
    intro ys zs h1 h2
    cases ys with
    | nil => simp [lexSign] at h1
    | cons y ys =>
      cases zs with
      | nil => simp [lexSign] at h2
      | cons z zs =>
        simp only [lexSign] at h1 h2 ⊢
        by_cases hxy : x < y
        · by_cases hyz : y < z
          · have : x < z := by omega
            simp [this]
          · by_cases hzy : z < y
            · simp [hyz, hzy] at h2
            · have : y = z := by omega
              subst this
              simp [hxy]
        · by_cases hyx : y < x
          · simp [hxy, hyx] at h1
          · have hxy' : x = y := by omega
            subst hxy'
            simp only [hxy, if_false] at h1
            by_cases hyz : x < z
            · simp [hyz]
            · by_cases hzy : z < x
              · simp [hyz, hzy] at h2
              · simp only [hyz, hzy, if_false] at h2 ⊢
                exact ih ys zs h1 h2

theorem lcase_cmp_antisymm (a b : List Nat) : _lcase_cmp a b = - _lcase_cmp b a := by
  rw [lcase_cmp_eq_lexSign, lcase_cmp_eq_lexSign b a]; exact lexSign_antisymm _ _

theorem lcase_cmp_eq_zero_iff (a b : List Nat) : _lcase_cmp a b = 0 ↔ foldName a = foldName b := by
  rw [lcase_cmp_eq_lexSign]; exact lexSign_eq_zero_iff _ _

theorem lcase_cmp_congr_left {t a : List Nat} (h : _lcase_cmp t a = 0) (b : List Nat) :
    _lcase_cmp t b = _lcase_cmp a b := by
  rw [lcase_cmp_eq_lexSign, lcase_cmp_eq_lexSign a b, (lcase_cmp_eq_zero_iff t a).1 h]

theorem lcase_cmp_congr_right {a b : List Nat} (h : _lcase_cmp a b = 0) (t : List Nat) :
    _lcase_cmp t a = _lcase_cmp t b := by
  rw [lcase_cmp_eq_lexSign, lcase_cmp_eq_lexSign t b, (lcase_cmp_eq_zero_iff a b).1 h]

theorem lcase_cmp_trans {a b c : List Nat} (h1 : _lcase_cmp a b < 0) (h2 : _lcase_cmp b c < 0) :
    _lcase_cmp a c < 0 := by
  rw [lcase_cmp_eq_lexSign] at h1 h2 ⊢; exact lexSign_trans _ _ _ h1 h2

theorem lcase_cmp_refl (a : List Nat) : _lcase_cmp a a = 0 :=
  (lcase_cmp_eq_zero_iff a a).2 rfl

theorem cstring_cstring (a : List Nat) : cstring (cstring a) = cstring a := by
  unfold cstring
  rw [List.takeWhile_eq_self_iff]
  intro x hx
  exact List.mem_takeWhile_imp (p := fun c => decide (c ≠ 0)) hx

theorem lcase_cmp_cstring (a b : List Nat) : _lcase_cmp (cstring a) b = _lcase_cmp a b := by
  have h : foldName (cstring a) = foldName a := by
    unfold foldName
    rw [cstring_cstring]
  rw [lcase_cmp_eq_lexSign, lcase_cmp_eq_lexSign a b, h]

/-! ## The search loop -/

theorem probe_pos_eq {left right : Nat} (h : left + right < 2 ^ 32) :
    ((left + right) % 2 ^ 32) >>> 1 = (left + right) / 2 := by
  rw [Nat.mod_eq_of_lt h, Nat.shiftRight_eq_div_pow, Nat.pow_one]

theorem find_pos_loop_found (probe : DWORD → Option Name) (str : Name) (endp n i : Nat)
    (hn : n < 2 ^ 31) (hi : i < n)
    (hbelow : ∀ p, p < i → ∃ b, probe p = some b ∧ 0 < _lcase_cmp str b)
    (habove : ∀ p, i < p → p < n → ∃ b, probe p = some b ∧ _lcase_cmp str b < 0)
    (hat : ∃ b, probe i = some b ∧ _lcase_cmp str b = 0) :
    ∀ fuel left right, left ≤ i → i ≤ right → right ≤ n → right - left < fuel →
      _find_pos_loop probe str endp fuel left right = some i := by
  intro fuel
  induction fuel with
  | zero => intro left right _ _ _ h; omega
  | succ fuel ih =>
    intro left right hl hr hrn hfuel
    have hle : left ≤ right := by omega
    have hsum : left + right < 2 ^ 32 := by omega
    have hpos : (left + right) / 2 < n := by omega
    rw [_find_pos_loop]
    simp only [hle, if_true, probe_pos_eq hsum]
    rcases Nat.lt_trichotomy ((left + right) / 2) i with hlt | heq | hgt
    · obtain ⟨b, hb, hc⟩ := hbelow _ hlt
      have h1 : ((left + right) / 2 + 1) % 2 ^ 32 = (left + right) / 2 + 1 :=
        Nat.mod_eq_of_lt (by omega)
      simp only [hb, hc, if_true, h1]
      exact ih _ _ (by omega) hr hrn (by omega)
    · obtain ⟨b, hb, hc⟩ := hat
      rw [heq]
      simp [hb, hc]
    · obtain ⟨b, hb, hc⟩ := habove _ hgt hpos
      have h1 : ((left + right) / 2 + 2 ^ 32 - 1) % 2 ^ 32 = (left + right) / 2 - 1 := by
        have : (left + right) / 2 + 2 ^ 32 - 1 = ((left + right) / 2 - 1) + 2 ^ 32 := by omega
        rw [this, Nat.add_mod_right]
        exact Nat.mod_eq_of_lt (by omega)
      have hc' : ¬ (0 < _lcase_cmp str b) := by omega
      simp only [hb, hc, hc', if_true, if_false, h1]
      exact ih _ _ hl (by omega) (by omega) (by omega)

theorem find_pos_loop_sound (probe : DWORD → Option Name) (str : Name) (endp : Nat) :
    ∀ fuel left right p, _find_pos_loop probe str endp fuel left right = some p →
      p = endp ∨ ∃ b, probe p = some b ∧ _lcase_cmp str b = 0 := by
  intro fuel
  induction fuel with
  | zero => intro left right p h; simp [_find_pos_loop] at h
  | succ fuel ih =>
    intro left right p h
    rw [_find_pos_loop] at h
    by_cases hle : left ≤ right
    · simp only [hle, if_true] at h
      cases hp : probe (((left + right) % 2 ^ 32) >>> 1) with
      | none => simp only [hp, Option.some.injEq] at h; exact Or.inl h.symm
      | some b =>
        simp only [hp] at h
        by_cases h1 : 0 < _lcase_cmp str b
        · simp only [gt_iff_lt, h1, if_true] at h; exact ih _ _ _ h
        · by_cases h2 : _lcase_cmp str b < 0
          · simp only [gt_iff_lt, h1, h2, if_true, if_false] at h; exact ih _ _ _ h
          · simp only [gt_iff_lt, h1, h2, if_false, Option.some.injEq] at h
            right
            exact ⟨b, by rw [← h]; exact hp, by omega⟩
    · simp only [hle, if_false, Option.some.injEq] at h; exact Or.inl h.symm

theorem find_pos_loop_terminates (probe : DWORD → Option Name) (str : Name) (endp n : Nat)
    (hn : n < 2 ^ 31) (hout : ∀ p, n ≤ p → probe p = none) :
    ∀ fuel left right, right ≤ n → right + 1 - left < fuel →
      ∃ p, _find_pos_loop probe str endp fuel left right = some p := by
  intro fuel
  induction fuel with
  | zero => intro left right _ h; omega
  | succ fuel ih =>
    intro left right hrn hfuel
    rw [_find_pos_loop]
    by_cases hle : left ≤ right
    · have hsum : left + right < 2 ^ 32 := by omega
      simp only [hle, if_true, probe_pos_eq hsum]
      cases hp : probe ((left + right) / 2) with
      | none => exact ⟨endp, rfl⟩
      | some b =>
        have hpos : (left + right) / 2 < n := by
          by_contra hcon
          rw [hout _ (by omega)] at hp
          cases hp
        simp only []
        by_cases h1 : 0 < _lcase_cmp str b
        · have e1 : ((left + right) / 2 + 1) % 2 ^ 32 = (left + right) / 2 + 1 :=
            Nat.mod_eq_of_lt (by omega)
          simp only [gt_iff_lt, h1, if_true, e1]
          exact ih _ _ hrn (by omega)
        · by_cases h2 : _lcase_cmp str b < 0
          · simp only [gt_iff_lt, h1, h2, if_true, if_false]
            by_cases hz : (left + right) / 2 = 0
            · -- `pos - 1` wraps to `2^32 - 1`; the next probe is at `2^31 - 1`
              have hl0 : left = 0 := by omega
              have e2 : ((left + right) / 2 + 2 ^ 32 - 1) % 2 ^ 32 = 2 ^ 32 - 1 := by
                rw [hz]; decide
              rw [e2, hl0]
              cases fuel with
              | zero => omega
              | succ fuel =>
                rw [_find_pos_loop]
                have e3 : ((0 + (2 ^ 32 - 1)) % 2 ^ 32) >>> 1 = 2 ^ 31 - 1 := by decide
                have e4 : probe (2 ^ 31 - 1) = none := hout _ (by omega)
                simp only [Nat.zero_le, if_true, e3, e4]
                exact ⟨endp, rfl⟩
            · have e2 : ((left + right) / 2 + 2 ^ 32 - 1) % 2 ^ 32 = (left + right) / 2 - 1 := by
                have : (left + right) / 2 + 2 ^ 32 - 1 = ((left + right) / 2 - 1) + 2 ^ 32 := by
                  omega
                rw [this, Nat.add_mod_right]
                exact Nat.mod_eq_of_lt (by omega)
              rw [e2]
              exact ih _ _ (by omega) (by omega)
          · simp only [gt_iff_lt, h1, h2, if_false]
            exact ⟨_, rfl⟩
    · simp only [hle, if_false]
      exact ⟨endp, rfl⟩

/-! ## Lookup on a key -/

theorem strictlySorted_iff_chain (names : List Name) :
    StrictlySorted names ↔ names.Chain' (fun a b => _lcase_cmp a b < 0) := by
  induction names with
  | nil => simp [StrictlySorted, strictlySortedB]
  | cons a rest ih =>
    cases rest with
    | nil => simp [StrictlySorted, strictlySortedB]
    | cons b rest =>
      unfold StrictlySorted at ih ⊢
      simp only [strictlySortedB, Bool.and_eq_true, decide_eq_true_eq, List.chain'_cons]
      rw [ih]

theorem strictlySorted_pairwise {names : List Name} (h : StrictlySorted names) :
    names.Pairwise (fun a b => _lcase_cmp a b < 0) := by
  haveI : IsTrans Name (fun a b => _lcase_cmp a b < 0) := ⟨fun _ _ _ h1 h2 => lcase_cmp_trans h1 h2⟩
  exact List.chain'_iff_pairwise.1 ((strictlySorted_iff_chain names).1 h)

theorem get?_some_lt {α : Type} {l : List α} {i : Nat} {x : α} (h : l.get? i = some x) :
    ∃ hi : i < l.length, l[i] = x := by
  rw [List.get?_eq_getElem?] at h
  exact List.getElem?_eq_some.1 h

theorem find_pos_from_present (probe : DWORD → Option Name) (names : List Name) (str x : Name)
    (i : Nat) (hprobe : ∀ p, probe p = names.get? p) (hn : names.length < 2 ^ 31)
    (hs : StrictlySorted names) (hx : names.get? i = some x) (hc : _lcase_cmp str x = 0) :
    _find_pos_from probe str names.length = some i := by
  obtain ⟨hi, hxi⟩ := get?_some_lt hx
  have hpw := List.pairwise_iff_getElem.1 (strictlySorted_pairwise hs)
  have hne : 0 ≠ names.length := by omega
  unfold _find_pos_from
  rw [if_pos hne]
  apply find_pos_loop_found probe str names.length names.length i hn hi
  · intro p hp
    have hp' : p < names.length := by omega
    refine ⟨names[p], ?_, ?_⟩
    · rw [hprobe, List.get?_eq_getElem?, List.getElem?_eq_getElem hp']
    · have h1 := hpw p i hp' hi hp
      rw [hxi] at h1
      rw [lcase_cmp_congr_left hc, lcase_cmp_antisymm]
      omega
  · intro p hp hp'
    refine ⟨names[p], ?_, ?_⟩
    · rw [hprobe, List.get?_eq_getElem?, List.getElem?_eq_getElem hp']
    · have h1 := hpw i p hi hp' hp
      rw [hxi] at h1
      rw [lcase_cmp_congr_left hc]
      exact h1
  · exact ⟨x, by rw [hprobe]; exact hx, hc⟩
  · exact Nat.zero_le _
  · omega
  · exact Nat.le_refl _
  · omega

theorem find_pos_from_result (probe : DWORD → Option Name) (names : List Name) (str : Name)
    (hprobe : ∀ p, probe p = names.get? p) (hn : names.length < 2 ^ 31) :
    ∃ p, _find_pos_from probe str names.length = some p ∧
      (p = names.length ∨ ∃ b, names.get? p = some b ∧ _lcase_cmp str b = 0) := by
  unfold _find_pos_from
  by_cases hne : 0 ≠ names.length
  · rw [if_pos hne]
    have hout : ∀ p, names.length ≤ p → probe p = none := by
      intro p hp
      rw [hprobe, List.get?_eq_getElem?]
      exact List.getElem?_eq_none hp
    obtain ⟨p, hp⟩ := find_pos_loop_terminates probe str names.length names.length hn hout
      (names.length + 2) 0 names.length (Nat.le_refl _) (by omega)
    refine ⟨p, hp, ?_⟩
    rcases find_pos_loop_sound probe str names.length _ _ _ _ hp with h | ⟨b, hb, hc⟩
    · exact Or.inl h
    · exact Or.inr ⟨b, by rw [← hprobe]; exact hb, hc⟩
  · rw [if_neg hne]
    exact ⟨names.length, rfl, Or.inl rfl⟩

theorem find_pos_from_absent (probe : DWORD → Option Name) (names : List Name) (str : Name)
    (hprobe : ∀ p, probe p = names.get? p) (hn : names.length < 2 ^ 31)
    (habs : ∀ b ∈ names, _lcase_cmp str b ≠ 0) :
    _find_pos_from probe str names.length = some names.length := by
  obtain ⟨p, hp, h | ⟨b, hb, hc⟩⟩ := find_pos_from_result probe names str hprobe hn
  · rw [hp, h]
  · exact absurd hc (habs b (List.get?_mem hb))

theorem key_of_keyOf {reg : Registry} {h : HKEY} {k : KeyRec} (hk : reg.key h = some k) :
    ∃ kid, reg.keyOf h = some kid ∧ reg.keys kid = k := by
  unfold Registry.key at hk
  cases hko : reg.keyOf h with
  | none => rw [hko] at hk; cases hk
  | some kid => rw [hko] at hk; exact ⟨kid, rfl, by simpa using hk⟩

theorem queryInfo_of_key {reg : Registry} {h : HKEY} {k : KeyRec} (hk : reg.key h = some k) :
    RegQueryInfoKeyA reg h = some (k.subkeys.length % 2 ^ 32, k.values.length % 2 ^ 32) := by
  simp [RegQueryInfoKeyA, hk]

theorem enumKey_of_key {reg : Registry} {h : HKEY} {k : KeyRec} (hk : reg.key h = some k)
    (p : Nat) : RegEnumKeyExA reg h p = (k.subkeys.map Prod.fst).get? p := by
  simp [RegEnumKeyExA, hk]

theorem enumValue_of_key {reg : Registry} {h : HKEY} {k : KeyRec} (hk : reg.key h = some k)
    (p : Nat) : RegEnumValueA reg h p = (k.values.map Prod.fst).get? p := by
  simp [RegEnumValueA, hk]

theorem regedit_find_pos_eq {reg : Registry} {self : regedit} {k : KeyRec}
    (hk : reg.key self._hkey = some k) (hn : k.subkeys.length < 2 ^ 31) (str : Name) :
    regedit._find_pos reg self str =
      match _find_pos_from (RegEnumKeyExA reg self._hkey) str (k.subkeys.map Prod.fst).length with
      | none => .error .diverged
      | some pos => .ok pos := by
  have hmod : k.subkeys.length % 2 ^ 32 = k.subkeys.length := Nat.mod_eq_of_lt (by omega)
  simp only [regedit._find_pos, queryInfo_of_key hk, hmod, List.length_map]

theorem values_find_pos_eq {reg : Registry} {self : values} {k : KeyRec}
    (hk : reg.key self._hkey = some k) (hn : k.values.length < 2 ^ 31) (str : Name) :
    values._find_pos reg self str =
      match _find_pos_from (RegEnumValueA reg self._hkey) str (k.values.map Prod.fst).length with
      | none => .error .diverged
      | some pos => .ok pos := by
  have hmod : k.values.length % 2 ^ 32 = k.values.length := Nat.mod_eq_of_lt (by omega)
  simp only [values._find_pos, queryInfo_of_key hk, hmod, List.length_map]

theorem regedit_find_present {reg : Registry} {self : regedit} {k : KeyRec}
    (hk : reg.key self._hkey = some k) (hn : k.subkeys.length < 2 ^ 31)
    (hs : StrictlySorted (k.subkeys.map Prod.fst)) {i : Nat} {x : Name}
    (hx : (k.subkeys.map Prod.fst).get? i = some x) {name : Name} (hc : _lcase_cmp name x = 0) :
    regedit.find reg self name = .ok ⟨self._hkey, i⟩ := by
  have h := find_pos_from_present (RegEnumKeyExA reg self._hkey) (k.subkeys.map Prod.fst) name x i
    (enumKey_of_key hk) (by simpa using hn) hs hx hc
  simp only [regedit.find, regedit_find_pos_eq hk hn, h]

theorem values_find_present {reg : Registry} {self : values} {k : KeyRec}
    (hk : reg.key self._hkey = some k) (hn : k.values.length < 2 ^ 31)
    (hs : StrictlySorted (k.values.map Prod.fst)) {i : Nat} {x : Name}
    (hx : (k.values.map Prod.fst).get? i = some x) {name : Name} (hc : _lcase_cmp name x = 0) :
    values.find reg self name = .ok ⟨self._hkey, i⟩ := by
  have h := find_pos_from_present (RegEnumValueA reg self._hkey) (k.values.map Prod.fst) name x i
    (enumValue_of_key hk) (by simpa using hn) hs hx hc
  simp only [values.find, values_find_pos_eq hk hn, h]

theorem regedit_find_absent {reg : Registry} {self : regedit} {k : KeyRec}
    (hk : reg.key self._hkey = some k) (hn : k.subkeys.length < 2 ^ 31)
    {name : Name} (habs : ∀ b ∈ k.subkeys.map Prod.fst, _lcase_cmp name b ≠ 0) :
    regedit.find reg self name = .ok ⟨self._hkey, k.subkeys.length⟩ := by
  have h := find_pos_from_absent (RegEnumKeyExA reg self._hkey) (k.subkeys.map Prod.fst) name
    (enumKey_of_key hk) (by simpa using hn) habs
  rw [List.length_map] at h
  simp only [regedit.find, regedit_find_pos_eq hk hn, List.length_map, h]

theorem regedit_size_of_key {reg : Registry} {self : regedit} {k : KeyRec}
    (hk : reg.key self._hkey = some k) : regedit.size reg self = k.subkeys.length % 2 ^ 32 := by
  simp only [regedit.size, queryInfo_of_key hk]

theorem values_size_of_key {reg : Registry} {self : values} {k : KeyRec}
    (hk : reg.key self._hkey = some k) : values.size reg self = k.values.length % 2 ^ 32 := by
  simp only [values.size, queryInfo_of_key hk]

/-! ### The handle table -/

theorem le_foldr_max_of_mem {l : List Nat} {a : Nat} (h : a ∈ l) : a ≤ l.foldr max 0 := by
  induction l with
  | nil => cases h
  | cons b l ih =>
    simp only [List.foldr_cons]
    rcases List.mem_cons.1 h with rfl | h'
    · exact Nat.le_max_left _ _
    · exact Nat.le_trans (ih h') (Nat.le_max_right _ _)

theorem lookupHandle_mem {h : HKEY} {hs : List (HKEY × Nat)} {kid : Nat}
    (hl : lookupHandle h hs = some kid) : h ∈ hs.map Prod.fst := by
  induction hs with
  | nil => simp [lookupHandle] at hl
  | cons e es ih =>
    simp only [lookupHandle] at hl
    by_cases he : e.1 = h
    · simp [he]
    · simp only [he, if_false] at hl
      simp [ih hl]

theorem freshHandle_ne_null (hs : List (HKEY × Nat)) : freshHandle hs ≠ NULL :=
  Nat.succ_ne_zero _

theorem lookupHandle_ne_fresh {h : HKEY} {hs : List (HKEY × Nat)} {kid : Nat}
    (hl : lookupHandle h hs = some kid) : h ≠ freshHandle hs := by
  have hle := le_foldr_max_of_mem (lookupHandle_mem hl)
  intro heq
  rw [heq] at hle
  exact Nat.not_succ_le_self _ hle

theorem lookupHandle_fresh (hs : List (HKEY × Nat)) : lookupHandle (freshHandle hs) hs = none := by
  cases h : lookupHandle (freshHandle hs) hs with
  | none => rfl
  | some kid => exact absurd rfl (lookupHandle_ne_fresh h)

theorem lookupHandle_append (h : HKEY) (hs : List (HKEY × Nat)) (f kid : Nat) :
    lookupHandle h (hs ++ [(f, kid)]) =
      match lookupHandle h hs with
      | some k => some k
      | none => if f = h then some kid else none := by
  induction hs with
  | nil => simp [lookupHandle]
  | cons e es ih =>
    simp only [List.cons_append, lookupHandle]
    by_cases he : e.1 = h
    · simp [he]
    · simp [he, ih]

theorem lookupHandle_filter_ne {h f : HKEY} (hne : h ≠ f) (hs : List (HKEY × Nat)) :
    lookupHandle h (hs.filter (fun e => decide (e.1 ≠ f))) = lookupHandle h hs := by
  induction hs with
  | nil => rfl
  | cons e es ih =>
    rw [List.filter_cons]
    by_cases hef : e.1 = f
    · have hd : decide (e.1 ≠ f) = false := by simp [hef]
      have heh : ¬ e.1 = h := fun hh => hne (hh ▸ hef)
      rw [hd]
      simp only [Bool.false_eq_true, if_false, lookupHandle, heh]
      exact ih
    · have hd : decide (e.1 ≠ f) = true := by simp [hef]
      rw [hd]
      simp only [if_true, lookupHandle]
      rw [ih]

theorem keyOf_newHandle_of_valid {reg : Registry} {h : HKEY} {kid : Nat}
    (hv : reg.keyOf h = some kid) (c : Nat) : (reg.newHandle c).1.keyOf h = some kid := by
  unfold Registry.keyOf at hv ⊢
  by_cases hn : h = NULL
  · simp [hn] at hv
  · simp only [hn, if_false] at hv ⊢
    simp only [Registry.newHandle, lookupHandle_append, hv]

theorem keyOf_newHandle_self (reg : Registry) (c : Nat) :
    (reg.newHandle c).1.keyOf (reg.newHandle c).2 = some c := by
  unfold Registry.keyOf
  simp only [Registry.newHandle, freshHandle_ne_null, if_false, lookupHandle_append,
    lookupHandle_fresh, if_true]

theorem keys_newHandle (reg : Registry) (c : Nat) : (reg.newHandle c).1.keys = reg.keys := rfl

theorem newHandle_ne_null (reg : Registry) (c : Nat) : (reg.newHandle c).2 ≠ NULL :=
  freshHandle_ne_null _

theorem newHandle_ne_valid {reg : Registry} {h : HKEY} {kid : Nat}
    (hv : reg.keyOf h = some kid) (c : Nat) : h ≠ (reg.newHandle c).2 := by
  unfold Registry.keyOf at hv
  by_cases hn : h = NULL
  · simp [hn] at hv
  · simp only [hn, if_false] at hv
    exact lookupHandle_ne_fresh hv

theorem keyOf_closeKey_of_ne {reg : Registry} {h f : HKEY} (hne : h ≠ f) :
    (RegCloseKey reg f).keyOf h = reg.keyOf h := by
  unfold Registry.keyOf RegCloseKey
  by_cases hn : h = NULL
  · simp [hn]
  · simp only [hn, if_false]
    exact lookupHandle_filter_ne hne _

theorem keyOf_setKey (reg : Registry) (kid : Nat) (k : KeyRec) (h : HKEY) :
    (reg.setKey kid k).keyOf h = reg.keyOf h := rfl

theorem keys_setKey_self (reg : Registry) (kid : Nat) (k : KeyRec) :
    (reg.setKey kid k).keys kid = k := by
  simp [Registry.setKey]

theorem key_eq_of_keyOf {reg : Registry} {h : HKEY} {kid : Nat} (hv : reg.keyOf h = some kid) :
    reg.key h = some (reg.keys kid) := by
  simp [Registry.key, hv]

/-! ### Entries -/

theorem findEntry_none {α : Type} {name : Name} {es : List (Name × α)}
    (h : findEntry name es = none) : ∀ b ∈ es.map Prod.fst, _lcase_cmp name b ≠ 0 := by
  induction es with
  | nil => intro b hb; cases hb
  | cons e es ih =>
    simp only [findEntry] at h
    by_cases hs : sameName name e.1 = true
    · simp [hs] at h
    · simp only [hs] at h
      intro b hb
      simp only [List.map_cons, List.mem_cons] at hb
      rcases hb with rfl | hb
      · simpa [sameName] using hs
      · exact ih h b hb

theorem findEntry_some {α : Type} {name : Name} {es : List (Name × α)} {x : α}
    (h : findEntry name es = some x) :
    ∃ i b, (es.map Prod.fst).get? i = some b ∧ _lcase_cmp name b = 0 := by
  induction es with
  | nil => simp [findEntry] at h
  | cons e es ih =>
    simp only [findEntry] at h
    by_cases hs : sameName name e.1 = true
    · exact ⟨0, e.1, rfl, by simpa [sameName] using hs⟩
    · simp only [hs] at h
      obtain ⟨i, b, hb, hc⟩ := ih h
      exact ⟨i + 1, b, by simpa using hb, hc⟩

theorem findEntry_isSome_of_mem {α : Type} (name : Name) {es : List (Name × α)} {b : Name}
    (hb : b ∈ es.map Prod.fst) (hc : _lcase_cmp name b = 0) : ∃ x, findEntry name es = some x := by
  cases h : findEntry name es with
  | none => exact absurd hc (findEntry_none h b hb)
  | some x => exact ⟨x, rfl⟩

theorem mem_insertEntry {α : Type} (name : Name) (x : α) (es : List (Name × α)) (b : Name) :
    b ∈ (insertEntry name x es).map Prod.fst ↔ b = name ∨ b ∈ es.map Prod.fst := by
  induction es with
  | nil => simp [insertEntry]
  | cons e es ih =>
    simp only [insertEntry]
    split
    · simp
    · simp only [List.map_cons, List.mem_cons, ih]
      constructor
      · rintro (h | h | h)
        · exact Or.inr (Or.inl h)
        · exact Or.inl h
        · exact Or.inr (Or.inr h)
      · rintro (h | h | h)
        · exact Or.inr (Or.inl h)
        · exact Or.inl h
        · exact Or.inr (Or.inr h)

theorem length_insertEntry {α : Type} (name : Name) (x : α) (es : List (Name × α)) :
    (insertEntry name x es).length = es.length + 1 := by
  induction es with
  | nil => rfl
  | cons e es ih =>
    simp only [insertEntry]
    split
    · rfl
    · simp [ih]

theorem pairwise_insertEntry {α : Type} (name : Name) (x : α) (es : List (Name × α))
    (hs : (es.map Prod.fst).Pairwise (fun a b => _lcase_cmp a b < 0))
    (hne : ∀ b ∈ es.map Prod.fst, _lcase_cmp name b ≠ 0) :
    ((insertEntry name x es).map Prod.fst).Pairwise (fun a b => _lcase_cmp a b < 0) := by
  induction es with
  | nil => simp [insertEntry]
  | cons e es ih =>
    simp only [List.map_cons, List.pairwise_cons] at hs
    simp only [insertEntry]
    by_cases hlt : _lcase_cmp name e.1 < 0
    · simp only [hlt, if_true, List.map_cons, List.pairwise_cons]
      refine ⟨?_, hs.1, hs.2⟩
      intro b hb
      rcases List.mem_cons.1 hb with rfl | hb
      · exact hlt
      · exact lcase_cmp_trans hlt (hs.1 b hb)
    · simp only [hlt, if_false, List.map_cons, List.pairwise_cons]
      have hne0 : _lcase_cmp name e.1 ≠ 0 := hne e.1 (by simp)
      have hgt : _lcase_cmp e.1 name < 0 := by
        rw [lcase_cmp_antisymm]
        rcases lexSign_range (foldName name) (foldName e.1) with h | h | h <;>
          rw [← lcase_cmp_eq_lexSign] at h <;> omega
      refine ⟨?_, ih hs.2 (fun b hb => hne b (by simp [hb]))⟩
      intro b hb
      rcases (mem_insertEntry name x es b).1 hb with rfl | hb
      · exact hgt
      · exact hs.1 b hb

theorem strictlySorted_of_pairwise {names : List Name}
    (h : names.Pairwise (fun a b => _lcase_cmp a b < 0)) : StrictlySorted names := by
  haveI : IsTrans Name (fun a b => _lcase_cmp a b < 0) := ⟨fun _ _ _ h1 h2 => lcase_cmp_trans h1 h2⟩
  exact (strictlySorted_iff_chain names).2 (List.chain'_iff_pairwise.2 h)

theorem strictlySorted_insertEntry {α : Type} (name : Name) (x : α) (es : List (Name × α))
    (hs : StrictlySorted (es.map Prod.fst))
    (hne : ∀ b ∈ es.map Prod.fst, _lcase_cmp name b ≠ 0) :
    StrictlySorted ((insertEntry name x es).map Prod.fst) :=
  strictlySorted_of_pairwise (pairwise_insertEntry name x es (strictlySorted_pairwise hs) hne)

theorem mem_get? {α : Type} {l : List α} {a : α} (h : a ∈ l) : ∃ i, l.get? i = some a := by
  obtain ⟨i, hi, rfl⟩ := List.getElem_of_mem h
  exact ⟨i, by rw [List.get?_eq_getElem?, List.getElem?_eq_getElem hi]⟩

theorem removeEntry_absent {α : Type} (name : Name) (es : List (Name × α)) :
    ∀ b ∈ (removeEntry name es).map Prod.fst, _lcase_cmp name b ≠ 0 := by
  intro b hb
  simp only [removeEntry, List.mem_map, List.mem_filter] at hb
  obtain ⟨e, ⟨_, he⟩, rfl⟩ := hb
  simpa [sameName] using he

theorem length_removeEntry_le {α : Type} (name : Name) (es : List (Name × α)) :
    (removeEntry name es).length ≤ es.length :=
  List.length_filter_le _ _

/-! ### Creating and deleting subkeys -/

theorem createKey_spec {reg reg1 : Registry} {h hk : HKEY} {kid : Nat} {N : Name} {m disp : DWORD}
    (hv : reg.keyOf h = some kid)
    (hc : RegCreateKeyExA reg h N m = some (reg1, hk, disp)) :
    reg1.keyOf h = some kid ∧ hk ≠ NULL ∧
    ((∃ child, findEntry (cstring N) (reg.keys kid).subkeys = some child ∧
        disp = REG_OPENED_EXISTING_KEY ∧ reg1.keys = reg.keys ∧ reg1.keyOf hk = some child) ∨
     (findEntry (cstring N) (reg.keys kid).subkeys = none ∧ disp = REG_CREATED_NEW_KEY ∧
        reg1.keys kid = { reg.keys kid with
          subkeys := insertEntry (cstring N) reg.nextKey (reg.keys kid).subkeys } ∧
        reg1.keyOf hk = some reg.nextKey)) := by
  unfold RegCreateKeyExA at hc
  simp only [hv] at hc
  cases hf : findEntry (cstring N) (reg.keys kid).subkeys with
  | some child =>
    simp only [hf, Option.some.injEq, Prod.mk.injEq] at hc
    obtain ⟨h1, h2, h3⟩ := hc
    subst h1 h2 h3
    exact ⟨keyOf_newHandle_of_valid hv _, newHandle_ne_null _ _,
      Or.inl ⟨child, rfl, rfl, rfl, keyOf_newHandle_self _ _⟩⟩
  | none =>
    simp only [hf, Option.some.injEq, Prod.mk.injEq] at hc
    obtain ⟨h1, h2, h3⟩ := hc
    subst h1 h2 h3
    refine ⟨keyOf_newHandle_of_valid (by exact hv) _, newHandle_ne_null _ _,
      Or.inr ⟨rfl, rfl, ?_, keyOf_newHandle_self _ _⟩⟩
    simp [Registry.newHandle, Registry.setKey]

theorem createKey_isSome {reg : Registry} {h : HKEY} {kid : Nat} (hv : reg.keyOf h = some kid)
    (N : Name) (m : DWORD) : ∃ r, RegCreateKeyExA reg h N m = some r := by
  unfold RegCreateKeyExA
  simp only [hv]
  cases findEntry (cstring N) (reg.keys kid).subkeys <;> exact ⟨_, rfl⟩

theorem insert_spec {reg reg1 : Registry} {self : regedit} {k : KeyRec} {N : Name} {it : iter}
    {created : Bool} (hk : reg.key self._hkey = some k) (hn : k.subkeys.length + 1 < 2 ^ 31)
    (hs : StrictlySorted (k.subkeys.map Prod.fst))
    (hins : regedit.insert reg self N = .ok (reg1, it, created)) :
    ∃ k1 i x, reg1.key self._hkey = some k1 ∧ k1.subkeys.length < 2 ^ 31 ∧
      StrictlySorted (k1.subkeys.map Prod.fst) ∧
      (k1.subkeys.map Prod.fst).get? i = some x ∧ _lcase_cmp N x = 0 ∧
      it = ⟨self._hkey, i⟩ ∧
      (created = true ↔ findEntry (cstring N) k.subkeys = none) ∧
      (created = false → reg1.keys = reg.keys) := by
  obtain ⟨kid, hv, hkk⟩ := key_of_keyOf hk
  unfold regedit.insert at hins
  cases hc : RegCreateKeyExA reg self._hkey N self._mode with
  | none => simp [hc] at hins
  | some r =>
    obtain ⟨r1, hk', disp⟩ := r
    simp only [hc] at hins
    obtain ⟨hv1, _, hcase⟩ := createKey_spec hv hc
    have hfind : ∀ k1 i x, r1.key self._hkey = some k1 → k1.subkeys.length < 2 ^ 31 →
        StrictlySorted (k1.subkeys.map Prod.fst) →
        (k1.subkeys.map Prod.fst).get? i = some x → _lcase_cmp N x = 0 →
        reg1 = r1 ∧ it = ⟨self._hkey, i⟩ ∧ created = decide (disp = REG_CREATED_NEW_KEY) := by
      intro k1 i x hk1 hn1 hs1 hx hcx
      rw [regedit_find_present hk1 hn1 hs1 hx hcx] at hins
      simp only [Except.ok.injEq, Prod.mk.injEq] at hins
      exact ⟨hins.1.symm, hins.2.1.symm, hins.2.2.symm⟩
    rcases hcase with ⟨child, hf, hd, hkeys, _⟩ | ⟨hf, hd, hkeys, _⟩
    · obtain ⟨i, x, hx, hcx⟩ := findEntry_some hf
      rw [hkk] at hx
      rw [lcase_cmp_cstring] at hcx
      have hk1 : r1.key self._hkey = some k := by
        rw [key_eq_of_keyOf hv1, hkeys, hkk]
      obtain ⟨e1, e2, e3⟩ := hfind k i x hk1 (by omega) hs hx hcx
      subst e1
      refine ⟨k, i, x, hk1, by omega, hs, hx, hcx, e2, ?_, fun _ => hkeys⟩
      rw [e3, hd, hkk] at *
      simp [hf, REG_OPENED_EXISTING_KEY, REG_CREATED_NEW_KEY]
    · have hk1 : r1.key self._hkey =
          some { k with subkeys := insertEntry (cstring N) reg.nextKey k.subkeys } := by
        rw [key_eq_of_keyOf hv1, hkeys, hkk]
      rw [hkk] at hf
      have hne := findEntry_none hf
      have hs1 := strictlySorted_insertEntry (cstring N) reg.nextKey k.subkeys hs hne
      have hmem : cstring N ∈ (insertEntry (cstring N) reg.nextKey k.subkeys).map Prod.fst :=
        (mem_insertEntry _ _ _ _).2 (Or.inl rfl)
      obtain ⟨i, hx⟩ := mem_get? hmem
      have hcx : _lcase_cmp N (cstring N) = 0 := by
        rw [lcase_cmp_antisymm, lcase_cmp_cstring, lcase_cmp_refl]; rfl
      have hlen : (insertEntry (cstring N) reg.nextKey k.subkeys).length < 2 ^ 31 := by
        rw [length_insertEntry]; exact hn
      obtain ⟨e1, e2, e3⟩ := hfind _ i (cstring N) hk1 hlen hs1 hx hcx
      subst e1
      refine ⟨_, i, cstring N, hk1, hlen, hs1, hx, hcx, e2, ?_, ?_⟩
      · rw [e3, hd]; simp [hf]
      · rw [e3, hd]; simp

theorem openKey_of_entry {reg : Registry} {h : HKEY} {kid : Nat} (hv : reg.keyOf h = some kid)
    {x : Name} (hx : x ∈ (reg.keys kid).subkeys.map Prod.fst) (m : DWORD) :
    ∃ c, RegOpenKeyExA reg h x m = some (reg.newHandle c) := by
  unfold RegOpenKeyExA
  simp only [hv]
  by_cases he : cstring x = []
  · exact ⟨kid, by simp [he]⟩
  · obtain ⟨c, hc⟩ := findEntry_isSome_of_mem (cstring x) hx
      (by rw [lcase_cmp_cstring]; exact lcase_cmp_refl x)
    exact ⟨c, by simp [he, hc]⟩

theorem erase_spec {reg : Registry} {self : regedit} {k : KeyRec} {i : Nat} {x : Name}
    (hk : reg.key self._hkey = some k) (hx : (k.subkeys.map Prod.fst).get? i = some x) :
    ∃ reg1 k1, regedit.erase reg self ⟨self._hkey, i⟩ =
        .ok (reg1, ⟨self._hkey, if i = 0 then 0 else i - 1⟩) ∧
      reg1.key self._hkey = some k1 ∧ k1.subkeys = removeEntry (cstring x) k.subkeys ∧
      k1.values = k.values := by
  obtain ⟨kid, hv, hkk⟩ := key_of_keyOf hk
  have hmem : x ∈ (reg.keys kid).subkeys.map Prod.fst := by rw [hkk]; exact List.get?_mem hx
  obtain ⟨c, hopen⟩ := openKey_of_entry hv hmem (KEY_READ ||| KEY_WRITE)
  have henum : RegEnumKeyExA reg self._hkey i = some x := by rw [enumKey_of_key hk]; exact hx
  have hgen : regedit._gen_fn reg self._hkey i =
      .ok ((reg.newHandle c).1, x, { _hkey := (reg.newHandle c).2, _mode := KEY_READ ||| KEY_WRITE }) := by
    simp [regedit._gen_fn, henum, regedit.ctor, regedit.open, hopen]
  have hv1 : (reg.newHandle c).1.keyOf self._hkey = some kid := keyOf_newHandle_of_valid hv c
  obtain ⟨child, hchild⟩ := findEntry_isSome_of_mem (cstring x) hmem
    (by rw [lcase_cmp_cstring]; exact lcase_cmp_refl x)
  have hdel : RegDeleteTreeA (reg.newHandle c).1 self._hkey x =
      some ((reg.newHandle c).1.setKey kid
        { reg.keys kid with subkeys := removeEntry (cstring x) (reg.keys kid).subkeys }) := by
    simp [RegDeleteTreeA, hv1, keys_newHandle, hchild]
  refine ⟨(regedit.close ((reg.newHandle c).1.setKey kid
      { reg.keys kid with subkeys := removeEntry (cstring x) (reg.keys kid).subkeys })
      { _hkey := (reg.newHandle c).2, _mode := KEY_READ ||| KEY_WRITE }).1,
    { k with subkeys := removeEntry (cstring x) k.subkeys }, ?_, ?_, rfl, rfl⟩
  · simp only [regedit.erase, hgen, hdel]
  · have hne : self._hkey ≠ (reg.newHandle c).2 := newHandle_ne_valid hv c
    simp only [regedit.close, newHandle_ne_null, ne_eq, not_false_eq_true, if_true]
    rw [Registry.key, keyOf_closeKey_of_ne hne, keyOf_setKey, hv1]
    simp [RegCloseKey, Registry.setKey, hkk]

/-! ### Values in the store -/

theorem sameName_self (a : Name) : sameName a a = true := by
  simp [sameName, lcase_cmp_refl]

theorem findEntry_replaceEntry {α : Type} (name : Name) (x : α) (es : List (Name × α)) {y : α}
    (h : findEntry name es = some y) : findEntry name (replaceEntry name x es) = some x := by
  induction es with
  | nil => simp [findEntry] at h
  | cons e es ih =>
    simp only [findEntry] at h
    by_cases hs : sameName name e.1 = true
    · simp [replaceEntry, findEntry, hs]
    · simp only [hs] at h
      simp [replaceEntry, findEntry, hs, ih h]

theorem findEntry_insertEntry {α : Type} (name : Name) (x : α) (es : List (Name × α))
    (h : findEntry name es = none) : findEntry name (insertEntry name x es) = some x := by
  induction es with
  | nil => simp [insertEntry, findEntry, sameName_self]
  | cons e es ih =>
    simp only [findEntry] at h
    by_cases hs : sameName name e.1 = true
    · simp [hs] at h
    · simp only [hs] at h
      simp only [insertEntry]
      split
      · simp [findEntry, sameName_self]
      · simp [findEntry, hs, ih h]

theorem setValue_spec {reg : Registry} {h : HKEY} {kid : Nat} (hv : reg.keyOf h = some kid)
    (name : Name) (ty : DWORD) (data : List Nat) :
    ∃ reg1, RegSetValueExA reg h name ty data = some reg1 ∧
      reg1.keyOf h = some kid ∧
      RegQueryValueExA reg1 h name = some ⟨ty, data⟩ := by
  unfold RegSetValueExA
  simp only [hv]
  cases hf : findEntry (cstring name) (reg.keys kid).values with
  | some y =>
    refine ⟨_, rfl, hv, ?_⟩
    simp only [RegQueryValueExA, Registry.key, keyOf_setKey, hv, Option.map_some',
      Option.some_bind, keys_setKey_self]
    exact findEntry_replaceEntry _ _ _ hf
  | none =>
    refine ⟨_, rfl, hv, ?_⟩
    simp only [RegQueryValueExA, Registry.key, keyOf_setKey, hv, Option.map_some',
      Option.some_bind, keys_setKey_self]
    exact findEntry_insertEntry _ _ _ hf

theorem write_spec {reg : Registry} {self : value} {kid : Nat}
    (hv : reg.keyOf self._hkey = some kid) (data : List Nat) (ty : type) (bytes : DWORD) :
    RegQueryValueExA (value.write reg self data ty bytes) self._hkey self._name =
      some ⟨ty.toDWORD, data.take bytes⟩ := by
  obtain ⟨reg1, h1, _, h3⟩ := setValue_spec hv self._name ty.toDWORD (data.take bytes)
  simp only [value.write, h1, h3]

theorem cstring_append_nul {s : List Nat} (hs : ∀ c ∈ s, c ≠ 0) : cstring (s ++ [0]) = s := by
  induction s with
  | nil => simp [cstring]
  | cons c s ih =>
    have hc : c ≠ 0 := hs c (by simp)
    have ih' := ih (fun d hd => hs d (by simp [hd]))
    unfold cstring at ih' ⊢
    rw [List.cons_append, List.takeWhile_cons, ih']
    simp [hc]

theorem string_at_append_nul {s : List Nat} (hs : ∀ c ∈ s, c ≠ 0) :
    read_overload.string_at (s ++ [0]) 0 = .ok s := by
  simp [read_overload.string_at, cstring_append_nul hs]

theorem dword_bytes (v : Nat) (hv : v < 2 ^ 32) :
    v % 256 + 256 * (v / 256 % 256) + 65536 * (v / 65536 % 256)
      + 16777216 * (v / 16777216 % 256) = v := by
  omega

/-! ### Counting with iterators -/

theorem distance_eq (h : HKEY) :
    ∀ (fuel p q : Nat), p ≤ q → q < 2 ^ 32 → q - p < fuel →
      distance fuel ⟨h, p⟩ ⟨h, q⟩ = some (q - p) := by
  intro fuel
  induction fuel with
  | zero => intro p q _ _ hf; omega
  | succ fuel ih =>
    intro p q hpq hq hf
    rw [distance]
    by_cases heq : p = q
    · subst heq
      simp [iter.ne, iter.eq]
    · have hne : iter.ne ⟨h, p⟩ ⟨h, q⟩ = true := by simp [iter.ne, iter.eq, heq]
      have hinc : iter.inc ⟨h, p⟩ = ⟨h, p + 1⟩ := by
        simp only [iter.inc]
        rw [Nat.mod_eq_of_lt (by omega)]
      rw [if_pos hne, hinc, ih (p + 1) q (by omega) hq (by omega)]
      simp only [Option.map_some', Option.some.injEq]
      omega

theorem regedit_size_lt (reg : Registry) (self : regedit) : regedit.size reg self < 2 ^ 32 := by
  unfold regedit.size RegQueryInfoKeyA
  cases reg.key self._hkey with
  | none => simp
  | some k => simp only [Option.map_some']; exact Nat.mod_lt _ (by decide)

theorem values_size_lt (reg : Registry) (self : values) : values.size reg self < 2 ^ 32 := by
  unfold values.size RegQueryInfoKeyA
  cases reg.key self._hkey with
  | none => simp
  | some k => simp only [Option.map_some']; exact Nat.mod_lt _ (by decide)

/-! ### Inserting and erasing values -/

theorem values_find_absent {reg : Registry} {self : values} {k : KeyRec}
    (hk : reg.key self._hkey = some k) (hn : k.values.length < 2 ^ 31)
    {name : Name} (habs : ∀ b ∈ k.values.map Prod.fst, _lcase_cmp name b ≠ 0) :
    values.find reg self name = .ok ⟨self._hkey, k.values.length⟩ := by
  have h := find_pos_from_absent (RegEnumValueA reg self._hkey) (k.values.map Prod.fst) name
    (enumValue_of_key hk) (by simpa using hn) habs
  rw [List.length_map] at h
  simp only [values.find, values_find_pos_eq hk hn, List.length_map, h]

theorem values_end_of_key {reg : Registry} {self : values} {k : KeyRec}
    (hk : reg.key self._hkey = some k) (hn : k.values.length < 2 ^ 31) :
    values.«end» reg self = ⟨self._hkey, k.values.length⟩ := by
  have hsize : values.size reg self % 2 ^ 32 = k.values.length := by
    rw [values_size_of_key hk, Nat.mod_mod]
    exact Nat.mod_eq_of_lt (by omega)
  rw [values.«end», hsize]

theorem findEntry_eq_none_of_absent {α : Type} {name : Name} {es : List (Name × α)}
    (h : ∀ b ∈ es.map Prod.fst, _lcase_cmp name b ≠ 0) : findEntry name es = none := by
  cases hf : findEntry name es with
  | none => rfl
  | some x =>
    obtain ⟨i, b, hb, hc⟩ := findEntry_some hf
    exact absurd hc (h b (List.get?_mem hb))

theorem setValue_new {reg : Registry} {h : HKEY} {kid : Nat} (hv : reg.keyOf h = some kid)
    {name : Name} (hf : findEntry (cstring name) (reg.keys kid).values = none)
    (ty : DWORD) (data : List Nat) :
    RegSetValueExA reg h name ty data = some (reg.setKey kid
      { reg.keys kid with
        values := insertEntry (cstring name) ⟨ty, data⟩ (reg.keys kid).values }) := by
  simp only [RegSetValueExA, hv, hf]

theorem values_insert_present {reg : Registry} {self : values} {k : KeyRec}
    (hk : reg.key self._hkey = some k) (hn : k.values.length < 2 ^ 31)
    (hs : StrictlySorted (k.values.map Prod.fst)) {i : Nat} {x : Name}
    (hx : (k.values.map Prod.fst).get? i = some x) {N : Name} (hc : _lcase_cmp N x = 0) :
    values.insert reg self N = .ok (reg, ⟨self._hkey, i⟩, false) := by
  obtain ⟨hi, _⟩ := get?_some_lt hx
  rw [List.length_map] at hi
  have hne : (i : Nat) ≠ k.values.length := by omega
  simp only [values.insert, values_find_present hk hn hs hx hc, values_end_of_key hk hn,
    iter.ne, iter.eq]
  simp [hne]

theorem values_insert_absent {reg : Registry} {self : values} {kid : Nat}
    (hv : reg.keyOf self._hkey = some kid) (hn : (reg.keys kid).values.length + 1 < 2 ^ 31)
    (hs : StrictlySorted ((reg.keys kid).values.map Prod.fst)) {N : Name}
    (habs : ∀ b ∈ (reg.keys kid).values.map Prod.fst, _lcase_cmp N b ≠ 0) :
    ∃ i, values.insert reg self N = .ok (reg.setKey kid
        { reg.keys kid with
          values := insertEntry (cstring N) ⟨REG_NONE, []⟩ (reg.keys kid).values },
        ⟨self._hkey, i⟩, true) ∧
      ((insertEntry (cstring N) (⟨REG_NONE, []⟩ : RegValue) (reg.keys kid).values).map
        Prod.fst).get? i = some (cstring N) := by
  have hk := key_eq_of_keyOf hv
  have habs' : ∀ b ∈ (reg.keys kid).values.map Prod.fst, _lcase_cmp (cstring N) b ≠ 0 := by
    intro b hb; rw [lcase_cmp_cstring]; exact habs b hb
  have hf := findEntry_eq_none_of_absent habs'
  have hs1 := strictlySorted_insertEntry (cstring N) (⟨REG_NONE, []⟩ : RegValue)
    (reg.keys kid).values hs habs'
  have hmem : cstring N ∈
      (insertEntry (cstring N) (⟨REG_NONE, []⟩ : RegValue) (reg.keys kid).values).map Prod.fst :=
    (mem_insertEntry _ _ _ _).2 (Or.inl rfl)
  obtain ⟨i, hx⟩ := mem_get? hmem
  have hcx : _lcase_cmp N (cstring N) = 0 := by
    rw [lcase_cmp_antisymm, lcase_cmp_cstring, lcase_cmp_refl]; rfl
  have hk1 : (reg.setKey kid { reg.keys kid with
      values := insertEntry (cstring N) ⟨REG_NONE, []⟩ (reg.keys kid).values }).key self._hkey =
      some { reg.keys kid with
        values := insertEntry (cstring N) ⟨REG_NONE, []⟩ (reg.keys kid).values } := by
    rw [Registry.key, keyOf_setKey, hv]
    simp [Registry.setKey]
  have hlen : (insertEntry (cstring N) (⟨REG_NONE, []⟩ : RegValue)
      (reg.keys kid).values).length < 2 ^ 31 := by
    rw [length_insertEntry]; exact hn
  refine ⟨i, ?_, hx⟩
  have hfind1 := values_find_present hk1 hlen hs1 hx hcx
  simp only [values.insert, values_find_absent hk (by omega) habs,
    values_end_of_key hk (by omega : (reg.keys kid).values.length < 2 ^ 31), iter.ne, iter.eq,
    setValue_new hv hf, hfind1]
  simp

theorem value_ctor_of_valid {reg : Registry} {hk : HKEY} {kid : Nat}
    (hv : reg.keyOf hk = some kid) (name : Name) :
    value.ctor reg hk name true =
      ((reg.newHandle kid).1,
        { _hkey := (reg.newHandle kid).2, _name := cstring name,
          _mode := KEY_READ ||| KEY_WRITE }) := by
  simp [value.ctor, RegOpenKeyExA, hv, cstring]

theorem keys_value_dtor (reg : Registry) (v : value) : (value.dtor reg v).keys = reg.keys := by
  unfold value.dtor
  split <;> rfl

theorem removeEntry_eq_self {α : Type} (name : Name) (es : List (Name × α))
    (h : ∀ b ∈ es.map Prod.fst, _lcase_cmp name b ≠ 0) : removeEntry name es = es := by
  unfold removeEntry
  rw [List.filter_eq_self]
  intro e he
  have := h e.1 (List.mem_map_of_mem Prod.fst he)
  simpa [sameName] using this

theorem removeEntry_eq_eraseIdx {α : Type} (es : List (Name × α)) :
    ∀ (i : Nat) (x : Name), (es.map Prod.fst).Pairwise (fun a b => _lcase_cmp a b < 0) →
      (es.map Prod.fst).get? i = some x → removeEntry (cstring x) es = es.eraseIdx i := by
  induction es with
  | nil => intro i x _ hx; simp at hx
  | cons e es ih =>
    intro i x hp hx
    simp only [List.map_cons, List.pairwise_cons] at hp
    cases i with
    | zero =>
      simp only [List.map_cons, List.get?_cons_zero, Option.some.injEq] at hx
      subst hx
      have hrest : removeEntry (cstring e.1) es = es := by
        apply removeEntry_eq_self
        intro b hb
        have := hp.1 b hb
        rw [lcase_cmp_cstring]
        omega
      have hsame : sameName (cstring e.1) e.1 = true := by
        simp [sameName, lcase_cmp_cstring, lcase_cmp_refl]
      have : removeEntry (cstring e.1) (e :: es) = removeEntry (cstring e.1) es := by
        simp [removeEntry, List.filter_cons, hsame]
      rw [this, hrest]
      rfl
    | succ i =>
      simp only [List.map_cons, List.get?_cons_succ] at hx
      have hlt := hp.1 x (List.get?_mem hx)
      have hne : sameName (cstring x) e.1 = false := by
        have h1 : _lcase_cmp (cstring x) e.1 ≠ 0 := by
          rw [lcase_cmp_cstring, lcase_cmp_antisymm]; omega
        simpa [sameName] using h1
      have : removeEntry (cstring x) (e :: es) = e :: removeEntry (cstring x) es := by
        simp [removeEntry, List.filter_cons, hne]
      rw [this, ih i x hp.2 hx]
      rfl

theorem values_erase_spec {reg : Registry} {self : values} {kid : Nat} {i : Nat} {x : Name}
    (hv : reg.keyOf self._hkey = some kid)
    (hx : ((reg.keys kid).values.map Prod.fst).get? i = some x) :
    ∃ reg1 it, values.erase reg self ⟨self._hkey, i⟩ = .ok (reg1, it) ∧
      reg1.keyOf self._hkey = some kid ∧
      reg1.keys kid = { reg.keys kid with
        values := removeEntry (cstring x) (reg.keys kid).values } ∧
      ∀ c, c ≠ kid → reg1.keys c = reg.keys c := by
  have hk := key_eq_of_keyOf hv
  have hmem : x ∈ (reg.keys kid).values.map Prod.fst := List.get?_mem hx
  have henum : RegEnumValueA reg self._hkey i = some x := by rw [enumValue_of_key hk]; exact hx
  have hgen : values._gen_fn reg self._hkey i =
      .ok ((reg.newHandle kid).1, x,
        { _hkey := (reg.newHandle kid).2, _name := cstring x,
          _mode := KEY_READ ||| KEY_WRITE }) := by
    simp only [values._gen_fn, henum, value_ctor_of_valid hv]
  have hv1 : (reg.newHandle kid).1.keyOf self._hkey = some kid := keyOf_newHandle_of_valid hv kid
  obtain ⟨v, hfv⟩ := findEntry_isSome_of_mem (cstring x) hmem
    (by rw [lcase_cmp_cstring]; exact lcase_cmp_refl x)
  have hdel : RegDeleteValueA (reg.newHandle kid).1 self._hkey x =
      some ((reg.newHandle kid).1.setKey kid
        { reg.keys kid with values := removeEntry (cstring x) (reg.keys kid).values }) := by
    simp [RegDeleteValueA, hv1, keys_newHandle, hfv]
  have hne : self._hkey ≠ (reg.newHandle kid).2 := newHandle_ne_valid hv kid
  refine ⟨value.dtor ((reg.newHandle kid).1.setKey kid
      { reg.keys kid with values := removeEntry (cstring x) (reg.keys kid).values })
      { _hkey := (reg.newHandle kid).2, _name := cstring x, _mode := KEY_READ ||| KEY_WRITE },
    ⟨self._hkey, min i (values.size (value.dtor ((reg.newHandle kid).1.setKey kid
      { reg.keys kid with values := removeEntry (cstring x) (reg.keys kid).values })
      { _hkey := (reg.newHandle kid).2, _name := cstring x, _mode := KEY_READ ||| KEY_WRITE })
      self % 2 ^ 32)⟩, ?_, ?_, ?_, ?_⟩
  · simp only [values.erase, hgen, hdel]
  · simp only [value.dtor, newHandle_ne_null, ne_eq, not_false_eq_true, if_true]
    rw [keyOf_closeKey_of_ne hne, keyOf_setKey, hv1]
  · rw [keys_value_dtor, keys_setKey_self]
  · intro c hc
    rw [keys_value_dtor]
    simp [Registry.setKey, Registry.newHandle, hc]

theorem values_erase_name_present {reg : Registry} {self : values} {kid : Nat}
    (hv : reg.keyOf self._hkey = some kid) (hn : (reg.keys kid).values.length < 2 ^ 31)
    (hs : StrictlySorted ((reg.keys kid).values.map Prod.fst)) {i : Nat} {x : Name}
    (hx : ((reg.keys kid).values.map Prod.fst).get? i = some x) {N : Name}
    (hc : _lcase_cmp N x = 0) :
    ∃ reg1, values.erase_name reg self N = .ok (reg1, 1) ∧
      reg1.keyOf self._hkey = some kid ∧
      reg1.keys kid = { reg.keys kid with values := (reg.keys kid).values.eraseIdx i } ∧
      ∀ c, c ≠ kid → reg1.keys c = reg.keys c := by
  have hk := key_eq_of_keyOf hv
  obtain ⟨hi, _⟩ := get?_some_lt hx
  rw [List.length_map] at hi
  have hne : (i : Nat) ≠ (reg.keys kid).values.length := by omega
  obtain ⟨reg1, it, he, h1, h2, h3⟩ := values_erase_spec hv hx
  rw [removeEntry_eq_eraseIdx _ i x (strictlySorted_pairwise hs) hx] at h2
  refine ⟨reg1, ?_, h1, h2, h3⟩
  simp only [values.erase_name, values_find_present hk hn hs hx hc, values_end_of_key hk hn,
    iter.eq, he]
  simp [hne]

theorem values_erase_name_absent {reg : Registry} {self : values} {k : KeyRec}
    (hk : reg.key self._hkey = some k) (hn : k.values.length < 2 ^ 31) {N : Name}
    (habs : ∀ b ∈ k.values.map Prod.fst, _lcase_cmp N b ≠ 0) :
    values.erase_name reg self N = .ok (reg, 0) := by
  simp only [values.erase_name, values_find_absent hk hn habs, values_end_of_key hk hn, iter.eq]
  simp

/-! ### The multi-string framing -/

theorem write_multi_sz_chars_eq (s : List Nat) :
    ∀ vec : List Nat, value.write_multi_sz_chars s vec = vec ++ cstring s := by
  induction s with
  | nil => intro vec; simp [value.write_multi_sz_chars, cstring]
  | cons c rest ih =>
    intro vec
    by_cases hc : c = 0
    · simp [value.write_multi_sz_chars, cstring, hc]
    · simp only [value.write_multi_sz_chars, ne_eq, hc, not_false_eq_true, if_true, ih]
      have : cstring (c :: rest) = c :: cstring rest := by
        simp [cstring, List.takeWhile_cons, hc]
      rw [this]
      simp

theorem write_multi_sz_loop_eq (strs : List (List Nat)) :
    ∀ vec : List Nat, value.write_multi_sz_loop strs vec =
      vec ++ (strs.map (fun s => cstring s ++ [0])).flatten := by
  induction strs with
  | nil => intro vec; simp [value.write_multi_sz_loop]
  | cons s rest ih =>
    intro vec
    simp only [value.write_multi_sz_loop, ih, write_multi_sz_chars_eq, List.map_cons,
      List.flatten_cons, List.append_assoc]

theorem write_multi_sz_vec_eq (strs : List (List Nat)) :
    value.write_multi_sz_vec strs = multi_sz_framing strs := by
  simp only [value.write_multi_sz_vec, write_multi_sz_loop_eq, multi_sz_framing, List.nil_append]

theorem length_multi_sz_framing (strs : List (List Nat)) :
    (multi_sz_framing strs).length = (strs.map (fun s => (cstring s).length + 1)).sum + 1 := by
  unfold multi_sz_framing
  induction strs with
  | nil => rfl
  | cons s rest ih =>
    simp only [List.map_cons, List.flatten_cons, List.append_assoc, List.length_append,
      List.length_cons, List.length_nil, List.sum_cons] at ih ⊢
    omega

theorem multi_sz_framing_ends (strs : List (List Nat)) (h : strs ≠ []) :
    ∃ front, multi_sz_framing strs = front ++ [0, 0] := by
  induction strs with
  | nil => exact absurd rfl h
  | cons s rest ih =>
    cases rest with
    | nil => exact ⟨cstring s, by simp [multi_sz_framing]⟩
    | cons t rest =>
      obtain ⟨front, hf⟩ := ih (by simp)
      refine ⟨cstring s ++ [0] ++ front, ?_⟩
      unfold multi_sz_framing at hf ⊢
      simp only [List.map_cons, List.flatten_cons, List.append_assoc] at hf ⊢
      rw [hf]

theorem cstring_eq_self {s : List Nat} (h : ∀ c ∈ s, c ≠ 0) : cstring s = s := by
  unfold cstring
  rw [List.takeWhile_eq_self_iff]
  intro c hc
  simpa using h c hc

/-! ### The comparison as a lexicographic order -/

theorem lexSign_eq_neg_one_iff (xs : List Nat) :
    ∀ ys : List Nat, lexSign xs ys = -1 ↔ List.Lex (fun a b : Nat => a < b) xs ys := by
  induction xs with
  | nil =>
    intro ys
    cases ys with
    | nil => simp [lexSign]
    | cons y ys => simp [lexSign, List.Lex.nil]
  | cons x xs ih =>
    intro ys
    cases ys with
    | nil =>
      simp only [lexSign]
      constructor
      · intro h; omega
      · intro h; cases h
    | cons y ys =>
      simp only [lexSign]
      by_cases h1 : x < y
      · simp only [h1, if_true, true_iff]
        exact List.Lex.rel h1
      · by_cases h2 : y < x
        · simp only [h1, h2, if_true, if_false]
          constructor
          · intro h; omega
          · intro h
            cases h with
            | cons h' => omega
            | rel h' => omega
        · have hxy : x = y := by omega
          subst hxy
          simp only [h1, if_false, ih ys]
          constructor
          · intro h; exact List.Lex.cons h
          · intro h
            cases h with
            | cons h' => exact h'
            | rel h' => omega

/-! ### One round of the search loop -/

theorem find_pos_loop_succ (probe : DWORD → Option Name) (str : Name) (endp fuel left right : Nat)
    (h : left ≤ right) :
    _find_pos_loop probe str endp (fuel + 1) left right =
      match _find_pos_step probe str endp left right with
      | .inl p => some p
      | .inr (l, r) => _find_pos_loop probe str endp fuel l r := by
  rw [_find_pos_loop]
  simp only [h, if_true, _find_pos_step]
  cases probe (((left + right) % 2 ^ 32) >>> 1) with
  | none => rfl
  | some b =>
    simp only []
    split
    · rfl
    · split <;> rfl

theorem round_returns_or_shrinks (probe : DWORD → Option Name) (str : Name) (n : Nat)
    (hn : n < 2 ^ 31) (hout : ∀ p, n ≤ p → probe p = none) (left right : Nat)
    (hle : left ≤ right) (hrn : right ≤ n) :
    RoundReturnsOrShrinks probe str n left right := by
  have hsum : left + right < 2 ^ 32 := by omega
  unfold RoundReturnsOrShrinks _find_pos_step
  simp only [probe_pos_eq hsum]
  cases hp : probe ((left + right) / 2) with
  | none => exact Or.inl rfl
  | some b =>
    have hpos : (left + right) / 2 < n := by
      by_contra hcon
      rw [hout _ (by omega)] at hp
      cases hp
    simp only []
    by_cases h1 : 0 < _lcase_cmp str b
    · have e1 : ((left + right) / 2 + 1) % 2 ^ 32 = (left + right) / 2 + 1 :=
        Nat.mod_eq_of_lt (by omega)
      simp only [gt_iff_lt, h1, if_true, e1]
      have a1 : left ≤ (left + right) / 2 + 1 := by omega
      have a2 : right + 1 - ((left + right) / 2 + 1) < right + 1 - left := by omega
      exact Or.inl ⟨a1, Nat.le_refl _, a2⟩
    · by_cases h2 : _lcase_cmp str b < 0
      · simp only [gt_iff_lt, h1, h2, if_true, if_false]
        by_cases hz : (left + right) / 2 = 0
        · have hl0 : left = 0 := by omega
          have e2 : ((left + right) / 2 + 2 ^ 32 - 1) % 2 ^ 32 = 2 ^ 32 - 1 := by
            rw [hz]; decide
          right
          have e3 : ((0 + (2 ^ 32 - 1)) % 2 ^ 32) >>> 1 = 2 ^ 31 - 1 := by decide
          have e4 : probe (2 ^ 31 - 1) = none := hout _ (by omega)
          rw [e2]
          refine ⟨hz, ⟨b, by rw [← hz]; exact hp, h2⟩, hl0, rfl, by rw [hl0]; exact e3, e4, ?_⟩
          rw [hl0]
          simp only [e3, e4]
        · have e2 : ((left + right) / 2 + 2 ^ 32 - 1) % 2 ^ 32 = (left + right) / 2 - 1 := by
            have : (left + right) / 2 + 2 ^ 32 - 1 = ((left + right) / 2 - 1) + 2 ^ 32 := by
              omega
            rw [this, Nat.add_mod_right]
            exact Nat.mod_eq_of_lt (by omega)
          rw [e2]
          have a1 : (left + right) / 2 - 1 ≤ right := by omega
          have a2 : (left + right) / 2 - 1 + 1 - left < right + 1 - left := by omega
          exact Or.inl ⟨Nat.le_refl _, a1, a2⟩
      · simp only [gt_iff_lt, h1, h2, if_false]
        right
        exact ⟨hpos, b, hp, by omega⟩

theorem find_pos_from_result_lt (probe : DWORD → Option Name) (names : List Name) (str : Name)
    (hprobe : ∀ p, probe p = names.get? p) (hn : names.length < 2 ^ 31) :
    ∃ p, _find_pos_from probe str names.length = some p ∧
      (p = names.length ∨
        (p < names.length ∧ ∃ b, names.get? p = some b ∧ _lcase_cmp str b = 0)) := by
  obtain ⟨p, hp, h | ⟨b, hb, hc⟩⟩ := find_pos_from_result probe names str hprobe hn
  · exact ⟨p, hp, Or.inl h⟩
  · exact ⟨p, hp, Or.inr ⟨(get?_some_lt hb).1, b, hb, hc⟩⟩

theorem enumKey_out_of_range {reg : Registry} {h : HKEY} {k : KeyRec}
    (hk : reg.key h = some k) (p : Nat) (hp : k.subkeys.length ≤ p) :
    RegEnumKeyExA reg h p = none := by
  rw [enumKey_of_key hk, List.get?_eq_getElem?]
  exact List.getElem?_eq_none (by simpa using hp)

theorem enumValue_out_of_range {reg : Registry} {h : HKEY} {k : KeyRec}
    (hk : reg.key h = some k) (p : Nat) (hp : k.values.length ≤ p) :
    RegEnumValueA reg h p = none := by
  rw [enumValue_of_key hk, List.get?_eq_getElem?]
  exact List.getElem?_eq_none (by simpa using hp)

theorem regedit_find_pos_result {reg : Registry} {self : regedit} {k : KeyRec}
    (hk : reg.key self._hkey = some k) (hn : k.subkeys.length < 2 ^ 31) (str : Name) :
    ∃ p, regedit._find_pos reg self str = .ok p ∧
      (p = k.subkeys.length ∨ (p < k.subkeys.length ∧
        ∃ b, (k.subkeys.map Prod.fst).get? p = some b ∧ _lcase_cmp str b = 0)) := by
  obtain ⟨p, hp, hres⟩ := find_pos_from_result_lt (RegEnumKeyExA reg self._hkey)
    (k.subkeys.map Prod.fst) str (enumKey_of_key hk) (by simpa using hn)
  rw [List.length_map] at hp hres
  refine ⟨p, ?_, hres⟩
  rw [regedit_find_pos_eq hk hn, List.length_map, hp]

theorem values_find_pos_result {reg : Registry} {self : values} {k : KeyRec}
    (hk : reg.key self._hkey = some k) (hn : k.values.length < 2 ^ 31) (str : Name) :
    ∃ p, values._find_pos reg self str = .ok p ∧
      (p = k.values.length ∨ (p < k.values.length ∧
        ∃ b, (k.values.map Prod.fst).get? p = some b ∧ _lcase_cmp str b = 0)) := by
  obtain ⟨p, hp, hres⟩ := find_pos_from_result_lt (RegEnumValueA reg self._hkey)
    (k.values.map Prod.fst) str (enumValue_of_key hk) (by simpa using hn)
  rw [List.length_map] at hp hres
  refine ⟨p, ?_, hres⟩
  rw [values_find_pos_eq hk hn, List.length_map, hp]

/-! ## The claims -/

/-- Claim C2: on an open key with fewer than `2^31` subkey names, `find` of a
name that compares equal to none of them returns the end sentinel: the
iterator at position `n`, equal to `end()`.  This covers a name below the
first entry, above the last one, and the empty key; the order of the names
plays no part. -/
theorem find_absent_returns_end (reg : Registry) (self : regedit) (k : KeyRec)
    (hopen : reg.key self._hkey = some k) (hn : k.subkeys.length < 2 ^ 31) (name : Name)
    (habs : ∀ b ∈ k.subkeys.map Prod.fst, _lcase_cmp name b ≠ 0) :
    regedit.find reg self name = .ok ⟨self._hkey, k.subkeys.length⟩ ∧
    regedit.find reg self name = .ok (regedit.«end» reg self) ∧
    (regedit.«end» reg self).eq ⟨self._hkey, k.subkeys.length⟩ = true := by
  have hsize : regedit.size reg self % 2 ^ 32 = k.subkeys.length := by
    rw [regedit_size_of_key hopen, Nat.mod_mod]
    exact Nat.mod_eq_of_lt (by omega)
  refine ⟨regedit_find_absent hopen hn habs, ?_, ?_⟩
  · rw [regedit_find_absent hopen hn habs, regedit.«end», hsize]
  · rw [regedit.«end», hsize]
    simp [iter.eq]

/-- Among the subkeys `a`, `b`, `d` the search for `c` (between two names),
for `!` (below the first name, where `pos - 1` wraps) and for `z` (above the
last name) ends at position `3`; on the key without subkeys it ends at
position `0`. -/
theorem find_absent_returns_end_witness :
    regedit.find sampleRegistry sampleKey [99] = .ok ⟨1, 3⟩ ∧
    regedit.find sampleRegistry sampleKey [33] = .ok ⟨1, 3⟩ ∧
    regedit.find sampleRegistry sampleKey [122] = .ok ⟨1, 3⟩ ∧
    regedit.find sampleRegistry sampleEmptyKey [97] = .ok ⟨2, 0⟩ :=
  ⟨(find_absent_returns_end sampleRegistry sampleKey (sampleKeys 0) rfl (by decide) [99]
      (by decide)).1,
   (find_absent_returns_end sampleRegistry sampleKey (sampleKeys 0) rfl (by decide) [33]
      (by decide)).1,
   (find_absent_returns_end sampleRegistry sampleKey (sampleKeys 0) rfl (by decide) [122]
      (by decide)).1,
   (find_absent_returns_end sampleRegistry sampleEmptyKey (sampleKeys 1) rfl (by decide) [97]
      (by decide)).1⟩

/-- The loop of `read<multi_sz>` over a null pointer: with a positive length
the first test of the loop dereferences the null pointer. -/
theorem read_multi_sz_loop_null (len fuel off : Nat) (vec : List (List Nat)) (h : off < len) :
    read_overload.read_multi_sz_loop none len (fuel + 1) off vec = .error .undefined := by
  simp [read_overload.read_multi_sz_loop, h]

/-- Reading as `multi_sz` any value that holds at least one byte (and fewer
than `2^32`) ends in the null-pointer dereference. -/
theorem read_multi_sz_faults (reg : Registry) (self : value) (v : RegValue)
    (hq : RegQueryValueExA reg self._hkey self._name = some v)
    (h0 : 0 < v.data.length) (h1 : v.data.length < 2 ^ 32) :
    value.read_multi_sz reg self = .error .undefined := by
  simp only [value.read_multi_sz, read_overload.read_multi_sz, hq, Nat.mod_eq_of_lt h1]
  exact read_multi_sz_loop_null _ _ _ _ h0

/-- Claim C6, on the sequence `a`, `b`, `c`: `write<multi_sz>` stores
`a\0b\0c\0\0` under the tag `multi_sz`, and the following `read<multi_sz>()`
does not return the strings: it dereferences the null `ptr` of line 196. -/
theorem write_multi_sz_read_multi_sz_faults :
    RegQueryValueExA (value.write_multi_sz sampleRegistry sampleValue [[97], [98], [99]])
        sampleValue._hkey sampleValue._name = some ⟨REG_MULTI_SZ, [97, 0, 98, 0, 99, 0, 0]⟩ ∧
    value.read_multi_sz (value.write_multi_sz sampleRegistry sampleValue [[97], [98], [99]])
        sampleValue = .error .undefined := by
  have hq : RegQueryValueExA (value.write_multi_sz sampleRegistry sampleValue [[97], [98], [99]])
      sampleValue._hkey sampleValue._name = some ⟨REG_MULTI_SZ, [97, 0, 98, 0, 99, 0, 0]⟩ :=
    have hv : sampleRegistry.keyOf sampleValue._hkey = some 0 := rfl
    write_spec hv _ _ _
  exact ⟨hq, read_multi_sz_faults _ _ _ hq (by decide) (by decide)⟩

/-- Claim C7: for a 32-bit unsigned `v`, on a value whose handle is open,
`write<dword>(v)` stores exactly four bytes under the tag `dword`, and the
following `read<dword>()` on the same value returns `v`. -/
theorem write_dword_read_dword (reg : Registry) (self : value) (kid : Nat)
    (hopen : reg.keyOf self._hkey = some kid) (v : Nat) (hv : v < 2 ^ 32) :
    (∃ data, RegQueryValueExA (value.write_dword reg self type.dword v) self._hkey self._name =
      some ⟨REG_DWORD, data⟩ ∧ data.length = 4) ∧
    value.read_dword (value.write_dword reg self type.dword v) self = .ok v := by
  have hq := write_spec hopen
    [v % 256, v / 256 % 256, v / 65536 % 256, v / 16777216 % 256] type.dword 4
  refine ⟨⟨_, hq, rfl⟩, ?_⟩
  simp only [value.read_dword, read_overload.read_dword, read_overload.read, value.write_dword, hq,
    List.take]
  rw [dword_bytes v hv]

/-- Writing `42` and reading it back gives `42`. -/
theorem write_dword_read_dword_witness :
    value.read_dword (value.write_dword sampleRegistry sampleValue type.dword 42) sampleValue
      = .ok 42 :=
  (write_dword_read_dword sampleRegistry sampleValue 0 rfl 42 (by decide)).2

/-- Claim C8: for a key and for its values collection, in a registry that
does not change meanwhile, the number of `++` steps from `begin()` to an
iterator equal to `end()` is `size()`; and `begin() == end()` exactly when
`size()` is `0`. -/
theorem size_counts_steps (reg : Registry) (self : regedit) :
    distance (regedit.size reg self + 1) self.«begin» (regedit.«end» reg self)
      = some (regedit.size reg self) ∧
    (self.«begin».eq (regedit.«end» reg self) = true ↔ regedit.size reg self = 0) ∧
    distance (values.size reg self.values_of + 1) self.values_of.«begin»
        (values.«end» reg self.values_of)
      = some (values.size reg self.values_of) ∧
    (self.values_of.«begin».eq (values.«end» reg self.values_of) = true ↔
      values.size reg self.values_of = 0) := by
  have h1 := regedit_size_lt reg self
  have h2 := values_size_lt reg self.values_of
  have e1 : regedit.size reg self % 2 ^ 32 = regedit.size reg self := Nat.mod_eq_of_lt h1
  have e2 : values.size reg self.values_of % 2 ^ 32 = values.size reg self.values_of :=
    Nat.mod_eq_of_lt h2
  refine ⟨?_, ?_, ?_, ?_⟩
  · have := distance_eq self._hkey (regedit.size reg self + 1) 0 (regedit.size reg self)
      (Nat.zero_le _) h1 (by omega)
    rw [regedit.«begin», regedit.«end», e1]
    simpa using this
  · rw [regedit.«end», e1]
    simp only [regedit.«begin», iter.eq, decide_True, Bool.and_true, decide_eq_true_eq]
    exact eq_comm
  · have := distance_eq self.values_of._hkey (values.size reg self.values_of + 1) 0
      (values.size reg self.values_of) (Nat.zero_le _) h2 (by omega)
    rw [values.«begin», values.«end», e2]
    simpa using this
  · rw [values.«end», e2]
    simp only [values.«begin», iter.eq, decide_True, Bool.and_true, decide_eq_true_eq]
    exact eq_comm

theorem ctor_empty_path {reg : Registry} {hk : HKEY} {child : Nat}
    (hv : reg.keyOf hk = some child) :
    regedit.ctor reg hk [] true =
      ((reg.newHandle child).1, { _hkey := (reg.newHandle child).2, _mode := KEY_READ ||| KEY_WRITE }) := by
  simp [regedit.ctor, regedit.«open», RegOpenKeyExA, hv, cstring]

/-- Claim C10, refuted as stated: on a key that already holds a handle, an
`open` that fails (here: the root is not a valid handle) returns `false` and
leaves the old handle in `_hkey`, so `is_open()` is `true` afterwards. -/
theorem open_failure_keeps_handle :
    sampleKey.is_open = true ∧
    (regedit.«open» sampleRegistry sampleKey NULL [97] true).2.2 = false ∧
    (regedit.«open» sampleRegistry sampleKey NULL [97] true).2.1.is_open = true := by
  decide

/-- Claim C10, as amended: `open` returns a value and never raises; when it
returns `true` the key is open; when it returns `false` a key that was closed
before the call is closed after it. -/
theorem open_result (reg : Registry) (self : regedit) (hkey : HKEY) (key : Name)
    (write_permision : Bool) :
    ((regedit.«open» reg self hkey key write_permision).2.2 = true →
      (regedit.«open» reg self hkey key write_permision).2.1.is_open = true) ∧
    ((regedit.«open» reg self hkey key write_permision).2.2 = false →
      self.is_open = false →
      (regedit.«open» reg self hkey key write_permision).2.1.is_open = false) := by
  simp only [regedit.«open»]
  cases ho : RegOpenKeyExA reg hkey key
      (if write_permision = true then KEY_READ ||| KEY_WRITE else KEY_READ) with
  | none =>
    refine ⟨fun h => by simp at h, fun _ h => ?_⟩
    simpa [regedit.is_open] using h
  | some r =>
    obtain ⟨reg1, h⟩ := r
    refine ⟨fun _ => ?_, fun hf => by simp at hf⟩
    have hne : h ≠ NULL := by
      unfold RegOpenKeyExA at ho
      cases hk : reg.keyOf hkey with
      | none => simp [hk] at ho
      | some kid =>
        simp only [hk] at ho
        by_cases he : cstring key = []
        · simp only [he, if_true, Option.some.injEq] at ho
          have h2 : (reg.newHandle kid).2 = h := by rw [ho]
          rw [← h2]
          exact newHandle_ne_null _ _
        · simp only [he, if_false] at ho
          cases hf : findEntry (cstring key) (reg.keys kid).subkeys with
          | none => simp [hf] at ho
          | some child =>
            simp only [hf, Option.some.injEq] at ho
            have h2 : (reg.newHandle child).2 = h := by rw [ho]
            rw [← h2]
            exact newHandle_ne_null _ _
    simp [regedit.is_open, hne]

/-- On a closed key, opening the subkey `a` of the sample key succeeds and
leaves the key open; opening the missing `x` fails and leaves it closed. -/
theorem open_result_witness :
    (regedit.«open» sampleRegistry {} 1 [97] true).2.2 = true ∧
    (regedit.«open» sampleRegistry {} 1 [97] true).2.1.is_open = true ∧
    (regedit.«open» sampleRegistry {} 1 [120] true).2.2 = false ∧
    (regedit.«open» sampleRegistry {} 1 [120] true).2.1.is_open = false :=
  ⟨by decide, (open_result sampleRegistry {} 1 [97] true).1 (by decide), by decide,
    (open_result sampleRegistry {} 1 [120] true).2 (by decide) (by decide)⟩

/-- Claim C11, refuted as stated: move-assigning the open key of handle `2`
into the open key of handle `1` gives the target handle `2`, and the source
then holds handle `1`, so its `is_open()` is `true`. -/
theorem move_assign_into_open_leaves_source_open :
    sampleKey.is_open = true ∧
    (regedit.move_assign sampleKey sampleEmptyKey).1 = sampleEmptyKey ∧
    (regedit.move_assign sampleKey sampleEmptyKey).2.is_open = true := by
  decide

/-- Claim C11, as amended: a move exchanges the members of the two keys.
After move-assigning `B` into `A`, `A` holds the former handle and mode of
`B` and `B` holds those of `A`, so `B` is open exactly when `A` was; after
move-constructing from `B`, the new key holds the former handle and mode of
`B` and `B` is closed. -/
theorem move_exchanges_members (A B : regedit) :
    (regedit.move_assign A B).1 = B ∧
    (regedit.move_assign A B).2 = A ∧
    (regedit.move_assign A B).2.is_open = A.is_open ∧
    (regedit.move_ctor B).1 = B ∧
    (regedit.move_ctor B).2.is_open = false := by
  refine ⟨rfl, rfl, rfl, rfl, ?_⟩
  simp [regedit.move_ctor, regedit.move_assign, regedit.swap, regedit.is_open]

/-- Claim C15: `_lcase_cmp(s1, s2)` is `-1`, `0` or `1`, the sign of the
lexicographic comparison of the two strings folded to lower case (a proper
initial segment before the longer string): it is `-1` exactly when the
folded `s1` is lexicographically below the folded `s2`, `1` exactly when it
is above, and `0` exactly when the two are equal, that is when the strings
are equal ignoring case; and `_lcase_cmp(s1, s2) == -_lcase_cmp(s2, s1)`. -/
theorem lcase_cmp_sign_of_folded_order (s1 s2 : List Nat) :
    (_lcase_cmp s1 s2 = -1 ∨ _lcase_cmp s1 s2 = 0 ∨ _lcase_cmp s1 s2 = 1) ∧
    _lcase_cmp s1 s2 = lexSign (foldName s1) (foldName s2) ∧
    (_lcase_cmp s1 s2 = -1 ↔
      List.Lex (fun a b : Nat => a < b) (foldName s1) (foldName s2)) ∧
    (_lcase_cmp s1 s2 = 1 ↔
      List.Lex (fun a b : Nat => a < b) (foldName s2) (foldName s1)) ∧
    (_lcase_cmp s1 s2 = 0 ↔ foldName s1 = foldName s2) ∧
    _lcase_cmp s1 s2 = - _lcase_cmp s2 s1 := by
  refine ⟨?_, lcase_cmp_eq_lexSign s1 s2, ?_, ?_, lcase_cmp_eq_zero_iff s1 s2,
    lcase_cmp_antisymm s1 s2⟩
  · rw [lcase_cmp_eq_lexSign]; exact lexSign_range _ _
  · rw [lcase_cmp_eq_lexSign]; exact lexSign_eq_neg_one_iff _ _
  · rw [lcase_cmp_antisymm, lcase_cmp_eq_lexSign s2 s1, ← lexSign_eq_neg_one_iff]
    constructor <;> intro h <;> omega

/-- Claim C16: on an open key, and on its values collection, with fewer than
`2^31` names in any order, every round of the loop of `_find_pos` either
returns, or strictly shrinks the range, or is the round whose probe at
position `0` finds a name greater than the target, after which `right` is
`2^32 - 1` and the next round returns the end position; the loop is these
rounds in sequence, `_find_pos` returns, and what it returns is `n` or a
position below `n` whose name compares equal to the target. -/
theorem find_pos_terminates (reg : Registry) (self : regedit) (k : KeyRec)
    (hopen : reg.key self._hkey = some k) (str : Name) :
    (k.subkeys.length < 2 ^ 31 →
      (∀ left right : Nat, left ≤ right → right ≤ k.subkeys.length →
        RoundReturnsOrShrinks (RegEnumKeyExA reg self._hkey) str k.subkeys.length left right) ∧
      (∀ fuel left right : Nat, left ≤ right →
        _find_pos_loop (RegEnumKeyExA reg self._hkey) str k.subkeys.length (fuel + 1) left right =
          match _find_pos_step (RegEnumKeyExA reg self._hkey) str k.subkeys.length left right with
          | .inl p => some p
          | .inr (l, r) =>
            _find_pos_loop (RegEnumKeyExA reg self._hkey) str k.subkeys.length fuel l r) ∧
      ∃ p, regedit._find_pos reg self str = .ok p ∧
        (p = k.subkeys.length ∨ (p < k.subkeys.length ∧
          ∃ b, (k.subkeys.map Prod.fst).get? p = some b ∧ _lcase_cmp str b = 0))) ∧
    (k.values.length < 2 ^ 31 →
      (∀ left right : Nat, left ≤ right → right ≤ k.values.length →
        RoundReturnsOrShrinks (RegEnumValueA reg self._hkey) str k.values.length left right) ∧
      (∀ fuel left right : Nat, left ≤ right →
        _find_pos_loop (RegEnumValueA reg self._hkey) str k.values.length (fuel + 1) left right =
          match _find_pos_step (RegEnumValueA reg self._hkey) str k.values.length left right with
          | .inl p => some p
          | .inr (l, r) =>
            _find_pos_loop (RegEnumValueA reg self._hkey) str k.values.length fuel l r) ∧
      ∃ p, values._find_pos reg self.values_of str = .ok p ∧
        (p = k.values.length ∨ (p < k.values.length ∧
          ∃ b, (k.values.map Prod.fst).get? p = some b ∧ _lcase_cmp str b = 0))) := by
  have hopen' : reg.key self.values_of._hkey = some k := hopen
  constructor
  · intro hn
    exact ⟨fun left right hle hrn => round_returns_or_shrinks _ str _ hn
        (enumKey_out_of_range hopen) left right hle hrn,
      fun fuel left right hle => find_pos_loop_succ _ str _ fuel left right hle,
      regedit_find_pos_result hopen hn str⟩
  · intro hn
    exact ⟨fun left right hle hrn => round_returns_or_shrinks _ str _ hn
        (enumValue_out_of_range hopen) left right hle hrn,
      fun fuel left right hle => find_pos_loop_succ _ str _ fuel left right hle,
      values_find_pos_result hopen' hn str⟩

/-- Among the subkeys `a`, `b`, `d` the search for `!` first probes position
`1`, then position `0` where `right` wraps, and returns `3`; the search for
`U` among the values `u`, `v1` returns. -/
theorem find_pos_terminates_witness :
    RoundReturnsOrShrinks (RegEnumKeyExA sampleRegistry 1) [33] 3 0 3 ∧
    RoundReturnsOrShrinks (RegEnumKeyExA sampleRegistry 1) [33] 3 0 0 ∧
    (∃ p, regedit._find_pos sampleRegistry sampleKey [33] = .ok p ∧
      (p = 3 ∨ (p < 3 ∧ ∃ b, [[97], [98], [100]].get? p = some b ∧ _lcase_cmp [33] b = 0))) ∧
    ∃ p, values._find_pos sampleRegistry sampleKey.values_of [85] = .ok p ∧
      (p = 2 ∨ (p < 2 ∧ ∃ b, [[117], [118, 49]].get? p = some b ∧ _lcase_cmp [85] b = 0)) :=
  ⟨((find_pos_terminates sampleRegistry sampleKey (sampleKeys 0) rfl [33]).1 (by decide)).1 0 3
      (by decide) (by decide),
   ((find_pos_terminates sampleRegistry sampleKey (sampleKeys 0) rfl [33]).1 (by decide)).1 0 0
      (by decide) (by decide),
   ((find_pos_terminates sampleRegistry sampleKey (sampleKeys 0) rfl [33]).1 (by decide)).2.2,
   ((find_pos_terminates sampleRegistry sampleKey (sampleKeys 0) rfl [85]).2 (by decide)).2.2⟩

end neo
